import Mathlib

/-!
Verification development for the `lisa` test-registry subsystem
(`lisa/core/testFactory.py`).

The registry ingests two independent registration streams (test classes and
test methods) and reconciles them into a two-level suite/case catalog.  The
Python code is shallowly embedded here:

* Python `str` is modelled as `List Char` (`Str`); `str.lower()` as a
  character-wise `Char.toLower` map (identifiers are ASCII), `str.startswith`
  as `List.isPrefixOf`, and `s.split(".")[0]` as `takeWhile (· != '.')`.
* Python dicts (insertion ordered, unique keys; the code only ever inserts
  fresh keys) are modelled as insertion-ordered association lists with
  first-match lookup (`lookupA`) and in-place value update (`updateA`).
* Object identity and the mutable cross references of the Python code are
  modelled by keying: a `TestCaseData` record lives authoritatively in
  `TestFactory.cases` under its `full_name` (unique, never replaced), so a
  suite's `cases` dict stores the `full_name` as the reference to the shared
  record, and the case's `suite` back reference stores the suite's registry
  key (unique, never replaced).  Setting `test_case.suite = test_suite`
  becomes an update of the authoritative record.
* A raised `LisaException` is modelled by `RegError`; since Python exceptions
  unwind without undoing prior mutations, every operation returns the state
  at the moment of the raise together with the error
  (`TestFactory × Option RegError`).
* The `@singleton` process-wide instance becomes explicit state passing; the
  logger calls do not affect registry state and are omitted.
-/

/-- Python strings, as lists of characters. -/
abbrev Str := List Char

/-- Python `str.lower()` (character-wise; identifiers are ASCII). -/
def lowerStr (s : Str) : Str := s.map Char.toLower

/-- A string containing no `'.'` separator. -/
def dotFree (s : Str) : Prop := '.' ∉ s

instance (s : Str) : Decidable (dotFree s) :=
  inferInstanceAs (Decidable ('.' ∉ s))

/-- Python `s.split(".")[0]`: the longest dot-free initial segment. -/
def firstSeg (s : Str) : Str := s.takeWhile (fun ch => ch != '.')

/-- Python `dict.get`: first (equivalently, with unique keys, only) binding. -/
def lookupA {α : Type} : List (Str × α) → Str → Option α
  | [], _ => none
  | (k, v) :: rest, k' => if k = k' then some v else lookupA rest k'

/-- In-place update of the value bound to a key (mutation of the stored
object; list structure and insertion order are unchanged). -/
def updateA {α : Type} (l : List (Str × α)) (k : Str) (g : α → α) : List (Str × α) :=
  l.map (fun p => if p.1 = k then (p.1, g p.2) else p)

/-- Number of bindings a key has in an association list. -/
def countKey {α : Type} (l : List (Str × α)) (k : Str) : Nat :=
  (l.map Prod.fst).count k

/-- A Python class object, as seen by the registry: an opaque reference
exposing its stable identifier `__name__`. -/
structure PyClass where
  name : Str
deriving DecidableEq, Repr

/-- A Python method object, as seen by the registry: an opaque reference
exposing its identifier `__name__` and qualified identifier `__qualname__`. -/
structure PyMethod where
  name : Str
  qualname : Str
deriving DecidableEq, Repr

/-- `TestCaseData`: one test case record.  `suite` is the back reference to
the owning suite (by registry key), absent until attachment. -/
structure TestCaseData where
  name : Str
  full_name : Str
  method : PyMethod
  description : Str
  priority : Option Int
  suite : Option Str
  key : Str
deriving DecidableEq, Repr

/-- `TestCaseData.__init__`: `name` defaults to the method's `__name__` when
the explicit name is empty; `full_name = method.__qualname__.lower()`;
`key = name.lower()`; `suite` left unset. -/
def mkTestCaseData (method : PyMethod) (description : Str) (priority : Option Int)
    (name : Str) : TestCaseData :=
  let n := if name ≠ [] then name else method.name
  { name := n
    full_name := lowerStr method.qualname
    method := method
    description := description
    priority := priority
    suite := none
    key := lowerStr n }

/-- `TestSuiteData`: one test suite record; `cases` maps a case key to the
`full_name` under which the shared case record lives in the registry. -/
structure TestSuiteData where
  test_class : PyClass
  name : Str
  key : Str
  area : Option Str
  category : Option Str
  description : Str
  tags : List Str
  cases : List (Str × Str)
deriving DecidableEq, Repr

/-- `TestSuiteData.__init__`: `name` defaults to the class's `__name__` when
the explicit name is empty; `key = name.lower()`; `cases` starts empty. -/
def mkTestSuiteData (test_class : PyClass) (area category : Option Str)
    (description : Str) (tags : List Str) (name : Str) : TestSuiteData :=
  let n := if name ≠ [] then name else test_class.name
  { test_class := test_class
    name := n
    key := lowerStr n
    area := area
    category := category
    description := description
    tags := tags
    cases := [] }

/-- The three `LisaException` raise sites of the registry. -/
inductive RegError where
  /-- `add_class`: "TestFactory duplicate test class name: key". -/
  | duplicateSuite (key : Str)
  /-- `add_method`: duplicate `full_name` in the registry-wide case map. -/
  | duplicateCase (full_name : Str)
  /-- `TestSuiteData.add_case`: duplicate case key within one suite. -/
  | duplicateCaseInSuite (key : Str)
deriving DecidableEq, Repr

/-- The `TestFactory` registry state: the two insertion-ordered maps. -/
structure TestFactory where
  suites : List (Str × TestSuiteData)
  cases : List (Str × TestCaseData)
deriving DecidableEq, Repr

/-- The freshly constructed (singleton) factory. -/
def emptyFactory : TestFactory := { suites := [], cases := [] }

/-- The mutation `test_case.suite = test_suite`, on the authoritative record. -/
def setSuiteRef (k : Str) (tc : TestCaseData) : TestCaseData := { tc with suite := some k }

/-- `TestFactory._add_case_to_suite` combined with `TestSuiteData.add_case`:
checks the case key within the suite, then inserts the (shared) case record
into the suite's `cases` and sets the case's `suite` back reference.  The
suite object is addressed by its registry key (both call sites pass a suite
that is present in `suites`; the `none` branch is unreachable there). -/
def addCaseToSuite (f : TestFactory) (suiteKey caseKey fullName : Str) :
    TestFactory × Option RegError :=
  match lookupA f.suites suiteKey with
  | none => (f, none)
  | some ts =>
    match lookupA ts.cases caseKey with
    | some _ => (f, some (RegError.duplicateCaseInSuite caseKey))
    | none =>
      ({ suites := updateA f.suites suiteKey
            (fun _ => { ts with cases := ts.cases ++ [(caseKey, fullName)] })
         cases := updateA f.cases fullName (setSuiteRef suiteKey) }, none)

/-- The reconciliation scan of `add_class`: iterate the registry's case
records (insertion order) and attach every one whose `full_name` starts with
the class prefix.  The first raised error propagates, leaving the state the
failing attach left. -/
def scanAttach (suiteKey pre : Str) :
    TestFactory → List (Str × TestCaseData) → TestFactory × Option RegError
  | f, [] => (f, none)
  | f, (q, tc) :: rest =>
    if pre.isPrefixOf tc.full_name then
      match addCaseToSuite f suiteKey tc.key q with
      | (f', none) => scanAttach suiteKey pre f' rest
      | (f', some e) => (f', some e)
    else scanAttach suiteKey pre f rest

/-- `TestFactory.add_class`: default the name from the class's `__name__`
only when the argument is `None` (an empty string is kept), lowercase it to
get the suite key, reject a duplicate key, insert a new `TestSuiteData`
(note: the computed name is not forwarded to the constructor), then scan all
registered cases for the `"<key>."` prefix and attach the matches. -/
def addClass (f : TestFactory) (test_class : PyClass) (area category : Option Str)
    (description : Str) (tags : List Str) (name : Option Str) :
    TestFactory × Option RegError :=
  let n := match name with
    | some s => s
    | none => test_class.name
  let key := lowerStr n
  match lookupA f.suites key with
  | some _ => (f, some (RegError.duplicateSuite key))
  | none =>
    let ts := mkTestSuiteData test_class area category description tags []
    let f1 : TestFactory := { f with suites := f.suites ++ [(key, ts)] }
    scanAttach key (key ++ ['.']) f1 f1.cases

/-- `TestFactory.add_method`: construct the case record, reject a duplicate
`full_name`, insert it, then derive the owning suite key as the first
dot-separated segment of `full_name` and attach immediately when that suite
already exists. -/
def addMethod (f : TestFactory) (test_method : PyMethod) (description : Str)
    (priority : Option Int) : TestFactory × Option RegError :=
  let tc := mkTestCaseData test_method description priority []
  let full_name := tc.full_name
  match lookupA f.cases full_name with
  | some _ => (f, some (RegError.duplicateCase full_name))
  | none =>
    let f1 : TestFactory := { f with cases := f.cases ++ [(full_name, tc)] }
    let class_name := firstSeg full_name
    match lookupA f1.suites class_name with
    | none => (f1, none)
    | some _ => addCaseToSuite f1 class_name tc.key full_name

/-- One registration call of either stream. -/
inductive Op where
  | clsOp (test_class : PyClass) (area category : Option Str) (description : Str)
      (tags : List Str) (name : Option Str)
  | mthOp (m : PyMethod) (description : Str) (priority : Option Int)
deriving DecidableEq, Repr

/-- Execute one registration call. -/
def execOp (f : TestFactory) : Op → TestFactory × Option RegError
  | Op.clsOp c a cat d t n => addClass f c a cat d t n
  | Op.mthOp m d p => addMethod f m d p

/-- Run a sequence of calls, keeping whatever state a failing call left. -/
def runOps : TestFactory → List Op → TestFactory
  | f, [] => f
  | f, op :: rest => runOps (execOp f op).1 rest

/-- Run a sequence of calls, `none` unless every call succeeds. -/
def runAll : TestFactory → List Op → Option TestFactory
  | f, [] => some f
  | f, op :: rest =>
    match execOp f op with
    | (f', none) => runAll f' rest
    | (_, some _) => none

/-- The suite key `add_class` computes for a class registration. -/
def suiteKeyOf (test_class : PyClass) (name : Option Str) : Str :=
  lowerStr (match name with
    | some s => s
    | none => test_class.name)

/-- The collaborator contract of the spec, made explicit as the spec's
"qualified names have exactly one class/method separator" constraint: the
method's qualified identifier is its dot-free owning-class identifier, the
separator, and its own dot-free identifier. -/
def OneSep (m : PyMethod) : Prop :=
  dotFree m.name ∧ m.qualname = firstSeg m.qualname ++ '.' :: m.name

instance (m : PyMethod) : Decidable (OneSep m) :=
  inferInstanceAs (Decidable (_ ∧ _))

/-- The one-separator constraint, per registration call (class registrations
are unconstrained). -/
def OneSepOp : Op → Prop
  | Op.clsOp _ _ _ _ _ _ => True
  | Op.mthOp m _ _ => OneSep m

instance (op : Op) : Decidable (OneSepOp op) := by
  cases op with
  | clsOp c a cat d t n => exact isTrue trivial
  | mthOp m d p => exact inferInstanceAs (Decidable (OneSep m))

/-- Extensional equality of suite records: all scalar fields equal and the
`cases` dicts equal as mappings. -/
def SuiteEquiv (a b : TestSuiteData) : Prop :=
  a.test_class = b.test_class ∧ a.name = b.name ∧ a.key = b.key ∧ a.area = b.area ∧
    a.category = b.category ∧ a.description = b.description ∧ a.tags = b.tags ∧
    ∀ ck, lookupA a.cases ck = lookupA b.cases ck

/-- Extensional equality of registry states: the suites maps agree as
mappings (with suite records compared extensionally) and the case maps agree
as mappings (case records carry no nested maps, so plain equality). -/
def FactoryEquiv (f g : TestFactory) : Prop :=
  (∀ k, ((lookupA f.suites k).isSome = (lookupA g.suites k).isSome ∧
    ∀ a b, lookupA f.suites k = some a → lookupA g.suites k = some b → SuiteEquiv a b)) ∧
  ∀ q, lookupA f.cases q = lookupA g.cases q

/-- Allowed evolution of one case record: every field frozen, except that the
`suite` back reference may be assigned once (`none` to `some`). -/
def CaseExtends (a b : TestCaseData) : Prop :=
  b.name = a.name ∧ b.full_name = a.full_name ∧ b.method = a.method ∧
    b.description = a.description ∧ b.priority = a.priority ∧ b.key = a.key ∧
    ∀ s, a.suite = some s → b.suite = some s

/-- Allowed evolution of one suite record: every scalar field frozen and the
`cases` dict append-only (no binding removed or replaced). -/
def SuiteExtends (a b : TestSuiteData) : Prop :=
  b.test_class = a.test_class ∧ b.name = a.name ∧ b.key = a.key ∧ b.area = a.area ∧
    b.category = a.category ∧ b.description = a.description ∧ b.tags = a.tags ∧
    ∀ ck q, lookupA a.cases ck = some q → lookupA b.cases ck = some q

/-- Append-only evolution of the registry (invariant I5): no binding of
`suites`, `cases`, or any suite's `cases` is removed or replaced, and
existing records change only by one-time `suite` back-reference assignment. -/
def Extends (f g : TestFactory) : Prop :=
  (∀ k ts, lookupA f.suites k = some ts →
    ∃ ts', lookupA g.suites k = some ts' ∧ SuiteExtends ts ts') ∧
  ∀ q tc, lookupA f.cases q = some tc →
    ∃ tc', lookupA g.cases q = some tc' ∧ CaseExtends tc tc'

/-- Structural well-formedness of a reachable registry state (one-separator
domain): case bindings are keyed by their record's `full_name`, which has the
one-separator shape ending in the record's `key`; suite bindings hold case
references of the matching shape that resolve in the registry; a set back
reference points at an existing suite, namely the first segment. -/
def WF (f : TestFactory) : Prop :=
  (f.cases.map Prod.fst).Nodup ∧
  (f.suites.map Prod.fst).Nodup ∧
  (∀ p ∈ f.cases, p.2.full_name = p.1 ∧
    ∃ c, dotFree c ∧ dotFree p.2.key ∧ p.1 = c ++ '.' :: p.2.key) ∧
  (∀ s ∈ f.suites, ∀ e ∈ s.2.cases,
    e.2 = s.1 ++ '.' :: e.1 ∧ lookupA f.cases e.2 ≠ none) ∧
  ∀ p ∈ f.cases, ∀ s, p.2.suite = some s →
    lookupA f.suites s ≠ none ∧ s = firstSeg p.1

/-- The `(case key, full_name)` pairs the scan attaches: the matching case
bindings, in scan order. -/
def matchedOf (pre : Str) (l : List (Str × TestCaseData)) : List (Str × Str) :=
  (l.filter (fun p => pre.isPrefixOf p.2.full_name)).map (fun p => (p.2.key, p.1))

/-- The registry keys of the matching case bindings. -/
def matchedQs (pre : Str) (l : List (Str × TestCaseData)) : List Str :=
  (l.filter (fun p => pre.isPrefixOf p.2.full_name)).map Prod.fst

/-- Batch form of the back-reference assignments the scan performs. -/
def setSuiteMany (qs : List Str) (k : Str) (cs : List (Str × TestCaseData)) :
    List (Str × TestCaseData) :=
  cs.map (fun p => if p.1 ∈ qs then (p.1, setSuiteRef k p.2) else p)

/-- Membership of a class registration with computed suite key `k`. -/
def hasSuiteOp (done : List Op) (k : Str) : Prop :=
  ∃ op ∈ done, ∃ c a cat d t n, op = Op.clsOp c a cat d t n ∧ suiteKeyOf c n = k

/-- Membership of a method registration with lowered qualified name `q`. -/
def hasMethodQual (done : List Op) (q : Str) : Prop :=
  ∃ op ∈ done, ∃ m d p, op = Op.mthOp m d p ∧ lowerStr m.qualname = q

/-- Canonical (registration-order independent) characterization of the state
after successfully executing the multiset `done` of registration calls: every
map lookup is determined by which calls are members of `done`. -/
structure Canon (done : List Op) (f : TestFactory) : Prop where
  nodupCases : (f.cases.map Prod.fst).Nodup
  nodupSuites : (f.suites.map Prod.fst).Nodup
  fullNameEq : ∀ p ∈ f.cases, p.2.full_name = p.1
  suitesDom : ∀ k, (lookupA f.suites k).isSome ↔ hasSuiteOp done k
  suitesVal : ∀ k ts, lookupA f.suites k = some ts →
    ∀ c a cat d t n, Op.clsOp c a cat d t n ∈ done → suiteKeyOf c n = k →
      ts.test_class = c ∧ ts.name = c.name ∧ ts.key = lowerStr c.name ∧
        ts.area = a ∧ ts.category = cat ∧ ts.description = d ∧ ts.tags = t
  casesDom : ∀ q, (lookupA f.cases q).isSome ↔ hasMethodQual done q
  casesVal : ∀ q tc, lookupA f.cases q = some tc →
    ∀ m d p, Op.mthOp m d p ∈ done → lowerStr m.qualname = q →
      tc.method = m ∧ tc.name = m.name ∧ tc.key = lowerStr m.name ∧ tc.full_name = q ∧
        tc.description = d ∧ tc.priority = p ∧
        (hasSuiteOp done (firstSeg q) → tc.suite = some (firstSeg q)) ∧
        (¬ hasSuiteOp done (firstSeg q) → tc.suite = none)
  suiteCases : ∀ k ts, lookupA f.suites k = some ts → ∀ ck q,
    (lookupA ts.cases ck = some q ↔
      ∃ m d p, Op.mthOp m d p ∈ done ∧ lowerStr m.qualname = q ∧
        firstSeg q = k ∧ lowerStr m.name = ck)

/-! ### Association-list lemmas -/

theorem lookupA_cons {α : Type} (a : Str) (b : α) (rest : List (Str × α)) (k' : Str) :
    lookupA ((a, b) :: rest) k' = if a = k' then some b else lookupA rest k' := rfl

theorem updateA_cons {α : Type} (a : Str) (b : α) (rest : List (Str × α)) (k : Str) (g : α → α) :
    updateA ((a, b) :: rest) k g =
      (if a = k then (a, g b) else (a, b)) :: updateA rest k g := by
  by_cases h : a = k <;> simp [updateA, h]

theorem lookupA_append {α : Type} (l₁ l₂ : List (Str × α)) (k : Str) :
    lookupA (l₁ ++ l₂) k =
      match lookupA l₁ k with
      | some v => some v
      | none => lookupA l₂ k := by
  induction l₁ with
  | nil => simp [lookupA]
  | cons p rest ih =>
    obtain ⟨a, b⟩ := p
    by_cases h : a = k
    · rw [List.cons_append, lookupA_cons, if_pos h, lookupA_cons, if_pos h]
    · rw [List.cons_append, lookupA_cons, if_neg h, lookupA_cons, if_neg h, ih]

theorem lookupA_append_of_none {α : Type} {l₁ : List (Str × α)} {k : Str}
    (h : lookupA l₁ k = none) (l₂ : List (Str × α)) :
    lookupA (l₁ ++ l₂) k = lookupA l₂ k := by
  rw [lookupA_append, h]

theorem lookupA_append_of_some {α : Type} {l₁ : List (Str × α)} {k : Str} {v : α}
    (h : lookupA l₁ k = some v) (l₂ : List (Str × α)) :
    lookupA (l₁ ++ l₂) k = some v := by
  rw [lookupA_append, h]

theorem lookupA_isSome_iff {α : Type} (l : List (Str × α)) (k : Str) :
    (lookupA l k).isSome ↔ k ∈ l.map Prod.fst := by
  induction l with
  | nil => simp [lookupA]
  | cons p rest ih =>
    obtain ⟨a, b⟩ := p
    rw [List.map_cons, List.mem_cons]
    by_cases h : a = k
    · subst h
      rw [lookupA_cons, if_pos rfl]
      exact ⟨fun _ => Or.inl rfl, fun _ => rfl⟩
    · rw [lookupA_cons, if_neg h, ih]
      constructor
      · intro hm
        exact Or.inr hm
      · intro hm
        rcases hm with hm | hm
        · exact absurd hm.symm h
        · exact hm

theorem lookupA_eq_none_iff {α : Type} (l : List (Str × α)) (k : Str) :
    lookupA l k = none ↔ k ∉ l.map Prod.fst := by
  rw [← lookupA_isSome_iff]
  cases lookupA l k <;> simp

theorem lookupA_ne_none_iff {α : Type} (l : List (Str × α)) (k : Str) :
    lookupA l k ≠ none ↔ k ∈ l.map Prod.fst := by
  rw [← lookupA_isSome_iff]
  cases lookupA l k <;> simp

theorem lookupA_mem {α : Type} {l : List (Str × α)} {k : Str} {v : α}
    (h : lookupA l k = some v) : (k, v) ∈ l := by
  induction l with
  | nil => simp [lookupA] at h
  | cons p rest ih =>
    obtain ⟨a, b⟩ := p
    by_cases ha : a = k
    · subst ha
      rw [lookupA_cons, if_pos rfl] at h
      rw [List.mem_cons]
      exact Or.inl (by rw [(Option.some.injEq _ _).mp h])
    · rw [lookupA_cons, if_neg ha] at h
      exact List.mem_cons_of_mem _ (ih h)

theorem nodup_keys_inj {α : Type} {l : List (Str × α)} (hn : (l.map Prod.fst).Nodup)
    {p p' : Str × α} (hp : p ∈ l) (hp' : p' ∈ l) (hk : p.1 = p'.1) : p = p' := by
  induction l with
  | nil => cases hp
  | cons a rest ih =>
    rw [List.map_cons, List.nodup_cons] at hn
    rcases List.mem_cons.mp hp with h1 | h1 <;> rcases List.mem_cons.mp hp' with h2 | h2
    · rw [h1, h2]
    · exfalso
      apply hn.1
      rw [← h1, hk]
      exact List.mem_map_of_mem Prod.fst h2
    · exfalso
      apply hn.1
      rw [← h2, ← hk]
      exact List.mem_map_of_mem Prod.fst h1
    · exact ih hn.2 h1 h2

theorem lookupA_of_mem_nodup {α : Type} {l : List (Str × α)} {k : Str} {v : α}
    (hn : (l.map Prod.fst).Nodup) (h : (k, v) ∈ l) : lookupA l k = some v := by
  induction l with
  | nil => cases h
  | cons p rest ih =>
    obtain ⟨a, b⟩ := p
    rw [List.map_cons, List.nodup_cons] at hn
    rcases List.mem_cons.mp h with h1 | h1
    · obtain ⟨hk, hv⟩ := Prod.mk.injEq .. ▸ h1.symm
      rw [hk, lookupA_cons, if_pos rfl, hv]
    · have hak : a ≠ k := by
        intro he
        subst he
        exact hn.1 (show a ∈ List.map Prod.fst rest from List.mem_map_of_mem Prod.fst h1)
      rw [lookupA_cons, if_neg hak]
      exact ih hn.2 h1

theorem lookupA_updateA {α : Type} (l : List (Str × α)) (k k' : Str) (g : α → α) :
    lookupA (updateA l k g) k' =
      if k' = k then (lookupA l k').map g else lookupA l k' := by
  induction l with
  | nil => by_cases h : k' = k <;> simp [lookupA, updateA, h]
  | cons p rest ih =>
    obtain ⟨a, b⟩ := p
    rw [updateA_cons]
    by_cases hak : a = k <;> by_cases hak' : a = k'
    · subst hak
      subst hak'
      rw [if_pos rfl, lookupA_cons, if_pos rfl, lookupA_cons, if_pos rfl, if_pos rfl]
      rfl
    · subst hak
      rw [if_pos rfl, lookupA_cons, if_neg hak', ih, lookupA_cons, if_neg hak']
    · subst hak'
      rw [if_neg hak, lookupA_cons, if_pos rfl, lookupA_cons, if_pos rfl, if_neg hak]
    · rw [if_neg hak, lookupA_cons, if_neg hak', ih, lookupA_cons, if_neg hak']

theorem keys_updateA {α : Type} (l : List (Str × α)) (k : Str) (g : α → α) :
    (updateA l k g).map Prod.fst = l.map Prod.fst := by
  induction l with
  | nil => rfl
  | cons p rest ih =>
    obtain ⟨a, b⟩ := p
    rw [updateA_cons]
    by_cases h : a = k
    · rw [if_pos h, List.map_cons, List.map_cons, ih]
    · rw [if_neg h, List.map_cons, List.map_cons, ih]

theorem updateA_of_not_mem {α : Type} {l : List (Str × α)} {k : Str}
    (h : k ∉ l.map Prod.fst) (g : α → α) : updateA l k g = l := by
  induction l with
  | nil => rfl
  | cons p rest ih =>
    obtain ⟨a, b⟩ := p
    rw [List.map_cons, List.mem_cons] at h
    push_neg at h
    rw [updateA_cons, if_neg (fun he : a = k => h.1 he.symm), ih h.2]

theorem updateA_updateA {α : Type} (l : List (Str × α)) (k : Str) (g₁ g₂ : α → α) :
    updateA (updateA l k g₁) k g₂ = updateA l k (g₂ ∘ g₁) := by
  induction l with
  | nil => rfl
  | cons p rest ih =>
    obtain ⟨a, b⟩ := p
    rw [updateA_cons]
    by_cases h : a = k
    · rw [if_pos h, updateA_cons, if_pos h, updateA_cons, if_pos h, ih]
      rfl
    · rw [if_neg h, updateA_cons, if_neg h, updateA_cons, if_neg h, ih]

theorem countKey_eq_zero_iff {α : Type} (l : List (Str × α)) (k : Str) :
    countKey l k = 0 ↔ k ∉ l.map Prod.fst := by
  rw [countKey, List.count_eq_zero]

theorem countKey_append {α : Type} (l₁ l₂ : List (Str × α)) (k : Str) :
    countKey (l₁ ++ l₂) k = countKey l₁ k + countKey l₂ k := by
  rw [countKey, countKey, countKey, List.map_append, List.count_append]

theorem countKey_updateA {α : Type} (l : List (Str × α)) (k k' : Str) (g : α → α) :
    countKey (updateA l k g) k' = countKey l k' := by
  rw [countKey, countKey, keys_updateA]

/-! ### Character and string lemmas -/

theorem toNat_ofNatAux (n : Nat) (h : n.isValidChar) : (Char.ofNatAux n h).toNat = n := rfl

theorem toLower_eq_dot_iff (c : Char) : c.toLower = '.' ↔ c = '.' := by
  constructor
  · intro h
    unfold Char.toLower at h
    simp only [] at h
    by_cases hc : c.toNat ≥ 65 ∧ c.toNat ≤ 90
    · rw [if_pos hc] at h
      exfalso
      have hvalid : (c.toNat + 32).isValidChar := Or.inl (by omega)
      rw [Char.ofNat, dif_pos hvalid] at h
      have hval := congrArg Char.toNat h
      rw [toNat_ofNatAux] at hval
      have h46 : ('.' : Char).toNat = 46 := by decide
      omega
    · rwa [if_neg hc] at h
  · intro h
    subst h
    decide

theorem lowerStr_append (s t : Str) : lowerStr (s ++ t) = lowerStr s ++ lowerStr t :=
  List.map_append _ s t

theorem lowerStr_cons (c : Char) (s : Str) : lowerStr (c :: s) = c.toLower :: lowerStr s := rfl

theorem lowerStr_dot_cons (s : Str) : lowerStr ('.' :: s) = '.' :: lowerStr s := by
  rw [lowerStr_cons]
  norm_num [show ('.' : Char).toLower = '.' from by decide]

theorem dotFree_lowerStr {s : Str} (h : dotFree s) : dotFree (lowerStr s) := by
  intro hmem
  rcases List.mem_map.mp hmem with ⟨c, hc, hlow⟩
  exact h (((toLower_eq_dot_iff c).mp hlow) ▸ hc)

theorem dotFree_cons {c : Char} {s : Str} (h : dotFree (c :: s)) : c ≠ '.' ∧ dotFree s := by
  rw [dotFree, List.mem_cons] at h
  push_neg at h
  exact ⟨fun he => h.1 he.symm, h.2⟩

theorem firstSeg_shape {c : Str} (hc : dotFree c) (n : Str) :
    firstSeg (c ++ '.' :: n) = c := by
  induction c with
  | nil =>
    rw [List.nil_append, firstSeg, List.takeWhile_cons]
    norm_num
  | cons a c' ih =>
    obtain ⟨ha, hc'⟩ := dotFree_cons hc
    rw [List.cons_append, firstSeg, List.takeWhile_cons, if_pos (by simpa using ha)]
    rw [firstSeg] at ih
    rw [ih hc']

theorem dotFree_firstSeg (s : Str) : dotFree (firstSeg s) := by
  intro hmem
  have := List.mem_takeWhile_imp hmem
  simp at this

theorem prefix_dot_shape : ∀ (k c n : Str), dotFree c → dotFree n →
    (k ++ ['.']) <+: (c ++ '.' :: n) → k = c := by
  intro k
  induction k with
  | nil =>
    intro c n hc _ hp
    cases c with
    | nil => rfl
    | cons a c' =>
      exfalso
      rw [List.nil_append] at hp
      rcases hp with ⟨t, ht⟩
      rw [List.singleton_append, List.cons_append] at ht
      obtain ⟨hda, _⟩ := List.cons.inj ht
      exact (dotFree_cons hc).1 hda.symm
  | cons x k' ih =>
    intro c n hc hn hp
    cases c with
    | nil =>
      exfalso
      rw [List.cons_append, List.nil_append] at hp
      rcases hp with ⟨t, ht⟩
      rw [List.cons_append] at ht
      obtain ⟨hx, htl⟩ := List.cons.inj ht
      apply hn
      rw [← htl]
      refine List.mem_append.mpr (Or.inl ?_)
      exact List.mem_append.mpr (Or.inr (by simp))
    | cons a c' =>
      rw [List.cons_append, List.cons_append] at hp
      rcases hp with ⟨t, ht⟩
      rw [List.cons_append] at ht
      obtain ⟨hxa, htl⟩ := List.cons.inj ht
      have : k' = c' := ih c' n (dotFree_cons hc).2 hn ⟨t, htl⟩
      rw [hxa, this]

theorem self_prefix_shape (k n : Str) : (k ++ ['.']) <+: (k ++ '.' :: n) :=
  ⟨n, by simp⟩

theorem isPrefixOf_shape_iff {c n : Str} (hc : dotFree c) (hn : dotFree n) (k : Str) :
    (k ++ ['.']).isPrefixOf (c ++ '.' :: n) = true ↔ k = c := by
  rw [List.isPrefixOf_iff_prefix]
  constructor
  · exact prefix_dot_shape k c n hc hn
  · intro h
    subst h
    exact self_prefix_shape k n

theorem oneSep_shape {m : PyMethod} (h : OneSep m) :
    ∃ c, dotFree c ∧ dotFree (lowerStr m.name) ∧
      lowerStr m.qualname = c ++ '.' :: lowerStr m.name ∧
      firstSeg (lowerStr m.qualname) = c := by
  obtain ⟨hname, hq⟩ := h
  have hfs : dotFree (firstSeg m.qualname) := dotFree_firstSeg _
  have hql : lowerStr m.qualname = lowerStr (firstSeg m.qualname) ++ '.' :: lowerStr m.name := by
    rw [← lowerStr_dot_cons, ← lowerStr_append, ← hq]
  refine ⟨lowerStr (firstSeg m.qualname), dotFree_lowerStr hfs, dotFree_lowerStr hname,
    hql, ?_⟩
  rw [hql, firstSeg_shape (dotFree_lowerStr hfs)]

/-! ### Unfolding lemmas for the registry operations -/

theorem mkTestCaseData_empty (m : PyMethod) (d : Str) (p : Option Int) :
    mkTestCaseData m d p [] =
      { name := m.name, full_name := lowerStr m.qualname, method := m, description := d,
        priority := p, suite := none, key := lowerStr m.name } := rfl

theorem mkTestSuiteData_empty (c : PyClass) (a cat : Option Str) (d : Str) (t : List Str) :
    mkTestSuiteData c a cat d t [] =
      { test_class := c, name := c.name, key := lowerStr c.name, area := a, category := cat,
        description := d, tags := t, cases := [] } := rfl

theorem addMethod_eq_of_dup {f : TestFactory} {m : PyMethod} {tc0 : TestCaseData}
    (h : lookupA f.cases (lowerStr m.qualname) = some tc0) (d : Str) (p : Option Int) :
    addMethod f m d p = (f, some (RegError.duplicateCase (lowerStr m.qualname))) := by
  simp only [addMethod, mkTestCaseData_empty, h]

theorem addMethod_eq_of_fresh_noSuite {f : TestFactory} {m : PyMethod}
    (h1 : lookupA f.cases (lowerStr m.qualname) = none)
    (h2 : lookupA f.suites (firstSeg (lowerStr m.qualname)) = none) (d : Str) (p : Option Int) :
    addMethod f m d p =
      ({ f with cases := f.cases ++ [(lowerStr m.qualname, mkTestCaseData m d p [])] },
        none) := by
  simp only [addMethod, mkTestCaseData_empty, h1, h2]

theorem addMethod_eq_of_fresh_suite {f : TestFactory} {m : PyMethod} {ts : TestSuiteData}
    (h1 : lookupA f.cases (lowerStr m.qualname) = none)
    (h2 : lookupA f.suites (firstSeg (lowerStr m.qualname)) = some ts) (d : Str) (p : Option Int) :
    addMethod f m d p =
      addCaseToSuite
        { f with cases := f.cases ++ [(lowerStr m.qualname, mkTestCaseData m d p [])] }
        (firstSeg (lowerStr m.qualname)) (lowerStr m.name) (lowerStr m.qualname) := by
  simp only [addMethod, mkTestCaseData_empty, h1, h2]

theorem addClass_eq_of_dup {f : TestFactory} {cls : PyClass} {nm : Option Str}
    {ts : TestSuiteData} (h : lookupA f.suites (suiteKeyOf cls nm) = some ts)
    (a cat : Option Str) (d : Str) (t : List Str) :
    addClass f cls a cat d t nm = (f, some (RegError.duplicateSuite (suiteKeyOf cls nm))) := by
  simp only [addClass, suiteKeyOf] at h ⊢
  rw [h]

theorem addClass_eq_of_fresh {f : TestFactory} {cls : PyClass} {nm : Option Str}
    (h : lookupA f.suites (suiteKeyOf cls nm) = none)
    (a cat : Option Str) (d : Str) (t : List Str) :
    addClass f cls a cat d t nm =
      scanAttach (suiteKeyOf cls nm) (suiteKeyOf cls nm ++ ['.'])
        { f with suites :=
            f.suites ++ [(suiteKeyOf cls nm, mkTestSuiteData cls a cat d t [])] }
        f.cases := by
  simp only [addClass, suiteKeyOf] at h ⊢
  rw [h]

/-! ### Structural lemmas for attachment and the reconciliation scan -/

theorem suiteExtends_refl (ts : TestSuiteData) : SuiteExtends ts ts :=
  ⟨rfl, rfl, rfl, rfl, rfl, rfl, rfl, fun _ _ h => h⟩

theorem suiteExtends_trans {a b c : TestSuiteData} (h1 : SuiteExtends a b)
    (h2 : SuiteExtends b c) : SuiteExtends a c := by
  obtain ⟨x1, x2, x3, x4, x5, x6, x7, x8⟩ := h1
  obtain ⟨y1, y2, y3, y4, y5, y6, y7, y8⟩ := h2
  exact ⟨y1.trans x1, y2.trans x2, y3.trans x3, y4.trans x4, y5.trans x5, y6.trans x6,
    y7.trans x7, fun ck q h => y8 ck q (x8 ck q h)⟩

theorem caseExtends_refl (tc : TestCaseData) : CaseExtends tc tc :=
  ⟨rfl, rfl, rfl, rfl, rfl, rfl, fun _ h => h⟩

theorem caseExtends_trans {a b c : TestCaseData} (h1 : CaseExtends a b)
    (h2 : CaseExtends b c) : CaseExtends a c := by
  obtain ⟨x1, x2, x3, x4, x5, x6, x7⟩ := h1
  obtain ⟨y1, y2, y3, y4, y5, y6, y7⟩ := h2
  exact ⟨y1.trans x1, y2.trans x2, y3.trans x3, y4.trans x4, y5.trans x5, y6.trans x6,
    fun s h => y7 s (x7 s h)⟩

theorem extends_refl (f : TestFactory) : Extends f f :=
  ⟨fun _ ts h => ⟨ts, h, suiteExtends_refl ts⟩, fun _ tc h => ⟨tc, h, caseExtends_refl tc⟩⟩

theorem extends_trans {f g h : TestFactory} (h1 : Extends f g) (h2 : Extends g h) :
    Extends f h := by
  refine ⟨fun k ts hk => ?_, fun q tc hq => ?_⟩
  · obtain ⟨ts', hts', he⟩ := h1.1 k ts hk
    obtain ⟨ts'', hts'', he'⟩ := h2.1 k ts' hts'
    exact ⟨ts'', hts'', suiteExtends_trans he he'⟩
  · obtain ⟨tc', htc', he⟩ := h1.2 q tc hq
    obtain ⟨tc'', htc'', he'⟩ := h2.2 q tc' htc'
    exact ⟨tc'', htc'', caseExtends_trans he he'⟩

theorem addCaseToSuite_eq_noSuite {f : TestFactory} {k : Str}
    (h : lookupA f.suites k = none) (ck q : Str) :
    addCaseToSuite f k ck q = (f, none) := by
  simp only [addCaseToSuite, h]

theorem addCaseToSuite_eq_dup {f : TestFactory} {k ck : Str} {ts : TestSuiteData} {q0 : Str}
    (h1 : lookupA f.suites k = some ts) (h2 : lookupA ts.cases ck = some q0) (q : Str) :
    addCaseToSuite f k ck q = (f, some (RegError.duplicateCaseInSuite ck)) := by
  simp only [addCaseToSuite, h1, h2]

theorem addCaseToSuite_eq_ok {f : TestFactory} {k ck : Str} {ts : TestSuiteData}
    (h1 : lookupA f.suites k = some ts) (h2 : lookupA ts.cases ck = none) (q : Str) :
    addCaseToSuite f k ck q =
      ({ suites := updateA f.suites k (fun _ => { ts with cases := ts.cases ++ [(ck, q)] })
         cases := updateA f.cases q (setSuiteRef k) }, none) := by
  simp only [addCaseToSuite, h1, h2]

theorem addCaseToSuite_err_unchanged {f : TestFactory} {k ck q : Str} {e : RegError}
    (h : (addCaseToSuite f k ck q).2 = some e) : (addCaseToSuite f k ck q).1 = f := by
  cases h1 : lookupA f.suites k with
  | none => rw [addCaseToSuite_eq_noSuite h1]
  | some ts =>
    cases h2 : lookupA ts.cases ck with
    | none =>
      rw [addCaseToSuite_eq_ok h1 h2] at h
      cases h
    | some q0 => rw [addCaseToSuite_eq_dup h1 h2]

theorem addCaseToSuite_keys_suites (f : TestFactory) (k ck q : Str) :
    (addCaseToSuite f k ck q).1.suites.map Prod.fst = f.suites.map Prod.fst := by
  cases h1 : lookupA f.suites k with
  | none => rw [addCaseToSuite_eq_noSuite h1]
  | some ts =>
    cases h2 : lookupA ts.cases ck with
    | none =>
      rw [addCaseToSuite_eq_ok h1 h2]
      dsimp only
      exact keys_updateA _ _ _
    | some q0 => rw [addCaseToSuite_eq_dup h1 h2]

theorem addCaseToSuite_keys_cases (f : TestFactory) (k ck q : Str) :
    (addCaseToSuite f k ck q).1.cases.map Prod.fst = f.cases.map Prod.fst := by
  cases h1 : lookupA f.suites k with
  | none => rw [addCaseToSuite_eq_noSuite h1]
  | some ts =>
    cases h2 : lookupA ts.cases ck with
    | none =>
      rw [addCaseToSuite_eq_ok h1 h2]
      dsimp only
      exact keys_updateA _ _ _
    | some q0 => rw [addCaseToSuite_eq_dup h1 h2]

theorem addCaseToSuite_suiteExtends {f : TestFactory} {k' : Str} {ts : TestSuiteData}
    (h : lookupA f.suites k' = some ts) (k ck q : Str) :
    ∃ ts', lookupA (addCaseToSuite f k ck q).1.suites k' = some ts' ∧ SuiteExtends ts ts' := by
  cases h1 : lookupA f.suites k with
  | none =>
    rw [addCaseToSuite_eq_noSuite h1]
    exact ⟨ts, h, suiteExtends_refl ts⟩
  | some ts0 =>
    cases h2 : lookupA ts0.cases ck with
    | none =>
      rw [addCaseToSuite_eq_ok h1 h2]
      simp only []
      rw [lookupA_updateA]
      by_cases hk : k' = k
      · subst hk
        rw [if_pos rfl, h]
        have hts : ts = ts0 := by
          rw [h] at h1
          exact (Option.some.injEq _ _).mp h1
        subst hts
        refine ⟨_, rfl, rfl, rfl, rfl, rfl, rfl, rfl, rfl, fun ck' q' hq' => ?_⟩
        exact lookupA_append_of_some hq' _
      · rw [if_neg hk]
        exact ⟨ts, h, suiteExtends_refl ts⟩
    | some q0 =>
      rw [addCaseToSuite_eq_dup h1 h2]
      exact ⟨ts, h, suiteExtends_refl ts⟩

theorem addCaseToSuite_caseFields {f : TestFactory} {q' : Str} {tc : TestCaseData}
    (h : lookupA f.cases q' = some tc) (k ck q : Str) :
    ∃ tc', lookupA (addCaseToSuite f k ck q).1.cases q' = some tc' ∧
      tc'.name = tc.name ∧ tc'.full_name = tc.full_name ∧ tc'.method = tc.method ∧
      tc'.description = tc.description ∧ tc'.priority = tc.priority ∧ tc'.key = tc.key ∧
      (tc'.suite = tc.suite ∨ tc'.suite = some k) := by
  cases h1 : lookupA f.suites k with
  | none =>
    rw [addCaseToSuite_eq_noSuite h1]
    exact ⟨tc, h, rfl, rfl, rfl, rfl, rfl, rfl, Or.inl rfl⟩
  | some ts0 =>
    cases h2 : lookupA ts0.cases ck with
    | none =>
      rw [addCaseToSuite_eq_ok h1 h2]
      simp only []
      rw [lookupA_updateA]
      by_cases hq : q' = q
      · subst hq
        rw [if_pos rfl, h]
        exact ⟨setSuiteRef k tc, rfl, rfl, rfl, rfl, rfl, rfl, rfl, Or.inr rfl⟩
      · rw [if_neg hq]
        exact ⟨tc, h, rfl, rfl, rfl, rfl, rfl, rfl, Or.inl rfl⟩
    | some q0 =>
      rw [addCaseToSuite_eq_dup h1 h2]
      exact ⟨tc, h, rfl, rfl, rfl, rfl, rfl, rfl, Or.inl rfl⟩

theorem scanAttach_nil (k pre : Str) (f : TestFactory) : scanAttach k pre f [] = (f, none) := rfl

theorem scanAttach_cons_match {k pre : Str} {tc : TestCaseData}
    (hm : pre.isPrefixOf tc.full_name = true) (f : TestFactory) (q : Str)
    (rest : List (Str × TestCaseData)) :
    scanAttach k pre f ((q, tc) :: rest) =
      match addCaseToSuite f k tc.key q with
      | (f', none) => scanAttach k pre f' rest
      | (f', some e) => (f', some e) := by
  rw [scanAttach, if_pos hm]

theorem scanAttach_cons_skip {k pre : Str} {tc : TestCaseData}
    (hm : ¬ pre.isPrefixOf tc.full_name = true) (f : TestFactory) (q : Str)
    (rest : List (Str × TestCaseData)) :
    scanAttach k pre f ((q, tc) :: rest) = scanAttach k pre f rest := by
  rw [scanAttach, if_neg hm]

theorem scanAttach_keys_suites (k pre : Str) :
    ∀ (l : List (Str × TestCaseData)) (f : TestFactory),
      (scanAttach k pre f l).1.suites.map Prod.fst = f.suites.map Prod.fst := by
  intro l
  induction l with
  | nil => intro f; rfl
  | cons p rest ih =>
    intro f
    obtain ⟨q, tc⟩ := p
    by_cases hm : pre.isPrefixOf tc.full_name
    · rw [scanAttach_cons_match hm]
      cases hatt : addCaseToSuite f k tc.key q with
      | mk f' e =>
        have hkeys := addCaseToSuite_keys_suites f k tc.key q
        rw [hatt] at hkeys
        cases e with
        | none =>
          simp only []
          rw [ih f', hkeys]
        | some err =>
          simp only []
          exact hkeys
    · rw [scanAttach_cons_skip hm]
      exact ih f

theorem scanAttach_keys_cases (k pre : Str) :
    ∀ (l : List (Str × TestCaseData)) (f : TestFactory),
      (scanAttach k pre f l).1.cases.map Prod.fst = f.cases.map Prod.fst := by
  intro l
  induction l with
  | nil => intro f; rfl
  | cons p rest ih =>
    intro f
    obtain ⟨q, tc⟩ := p
    by_cases hm : pre.isPrefixOf tc.full_name
    · rw [scanAttach_cons_match hm]
      cases hatt : addCaseToSuite f k tc.key q with
      | mk f' e =>
        have hkeys := addCaseToSuite_keys_cases f k tc.key q
        rw [hatt] at hkeys
        cases e with
        | none =>
          simp only []
          rw [ih f', hkeys]
        | some err =>
          simp only []
          exact hkeys
    · rw [scanAttach_cons_skip hm]
      exact ih f

theorem scanAttach_suiteExtends (k pre : Str) :
    ∀ (l : List (Str × TestCaseData)) (f : TestFactory) {k' : Str} {ts : TestSuiteData},
      lookupA f.suites k' = some ts →
      ∃ ts', lookupA (scanAttach k pre f l).1.suites k' = some ts' ∧ SuiteExtends ts ts' := by
  intro l
  induction l with
  | nil =>
    intro f k' ts h
    exact ⟨ts, h, suiteExtends_refl ts⟩
  | cons p rest ih =>
    intro f k' ts h
    obtain ⟨q, tc⟩ := p
    by_cases hm : pre.isPrefixOf tc.full_name
    · rw [scanAttach_cons_match hm]
      cases hatt : addCaseToSuite f k tc.key q with
      | mk f' e =>
        have hstep := addCaseToSuite_suiteExtends h k tc.key q
        rw [hatt] at hstep
        obtain ⟨ts1, hts1, hext1⟩ := hstep
        cases e with
        | none =>
          simp only []
          obtain ⟨ts2, hts2, hext2⟩ := ih f' hts1
          exact ⟨ts2, hts2, suiteExtends_trans hext1 hext2⟩
        | some err => exact ⟨ts1, hts1, hext1⟩
    · rw [scanAttach_cons_skip hm]
      exact ih f h

theorem scanAttach_caseFields (k pre : Str) :
    ∀ (l : List (Str × TestCaseData)) (f : TestFactory) {q' : Str} {tc : TestCaseData},
      lookupA f.cases q' = some tc →
      ∃ tc', lookupA (scanAttach k pre f l).1.cases q' = some tc' ∧
        tc'.name = tc.name ∧ tc'.full_name = tc.full_name ∧ tc'.method = tc.method ∧
        tc'.description = tc.description ∧ tc'.priority = tc.priority ∧ tc'.key = tc.key ∧
        (tc'.suite = tc.suite ∨ tc'.suite = some k) := by
  intro l
  induction l with
  | nil =>
    intro f q' tc h
    exact ⟨tc, h, rfl, rfl, rfl, rfl, rfl, rfl, Or.inl rfl⟩
  | cons p rest ih =>
    intro f q' tc h
    obtain ⟨q, tc0⟩ := p
    by_cases hm : pre.isPrefixOf tc0.full_name
    · rw [scanAttach_cons_match hm]
      cases hatt : addCaseToSuite f k tc0.key q with
      | mk f' e =>
        have hstep := addCaseToSuite_caseFields h k tc0.key q
        rw [hatt] at hstep
        obtain ⟨tc1, htc1, e1, e2, e3, e4, e5, e6, e7⟩ := hstep
        cases e with
        | none =>
          simp only []
          obtain ⟨tc2, htc2, g1, g2, g3, g4, g5, g6, g7⟩ := ih f' htc1
          refine ⟨tc2, htc2, g1.trans e1, g2.trans e2, g3.trans e3, g4.trans e4,
            g5.trans e5, g6.trans e6, ?_⟩
          rcases g7 with g7 | g7
          · rcases e7 with e7 | e7
            · exact Or.inl (g7.trans e7)
            · exact Or.inr (g7.trans e7)
          · exact Or.inr g7
        | some err => exact ⟨tc1, htc1, e1, e2, e3, e4, e5, e6, e7⟩
    · rw [scanAttach_cons_skip hm]
      exact ih f h

/-! ### Characterization of a successful add_method -/

theorem addMethod_ok {f f' : TestFactory} {m : PyMethod} {d : Str} {p : Option Int}
    (h : addMethod f m d p = (f', none)) :
    lookupA f.cases (lowerStr m.qualname) = none ∧
    ∃ tc, lookupA f'.cases (lowerStr m.qualname) = some tc ∧
      tc.name = m.name ∧ tc.key = lowerStr m.name ∧ tc.full_name = lowerStr m.qualname ∧
      tc.description = d ∧ tc.priority = p ∧ tc.method = m := by
  cases h1 : lookupA f.cases (lowerStr m.qualname) with
  | some tc0 =>
    rw [addMethod_eq_of_dup h1] at h
    exact absurd (congrArg Prod.snd h) (by simp)
  | none =>
    refine ⟨rfl, ?_⟩
    have hbase : lookupA (f.cases ++ [(lowerStr m.qualname, mkTestCaseData m d p [])])
        (lowerStr m.qualname) = some (mkTestCaseData m d p []) := by
      rw [lookupA_append_of_none h1, lookupA_cons, if_pos rfl]
    cases h2 : lookupA f.suites (firstSeg (lowerStr m.qualname)) with
    | none =>
      rw [addMethod_eq_of_fresh_noSuite h1 h2] at h
      obtain ⟨hf, -⟩ := Prod.mk.injEq .. ▸ h
      rw [← hf]
      exact ⟨mkTestCaseData m d p [], hbase, rfl, rfl, rfl, rfl, rfl, rfl⟩
    | some ts =>
      rw [addMethod_eq_of_fresh_suite h1 h2] at h
      have hbase2 : lookupA
          ({ f with cases := f.cases ++ [(lowerStr m.qualname, mkTestCaseData m d p [])] }
            : TestFactory).cases (lowerStr m.qualname) = some (mkTestCaseData m d p []) := hbase
      have hfields := addCaseToSuite_caseFields hbase2 (firstSeg (lowerStr m.qualname))
        (lowerStr m.name) (lowerStr m.qualname)
      rw [h] at hfields
      obtain ⟨tc', htc', e1, e2, e3, e4, e5, e6, _⟩ := hfields
      exact ⟨tc', htc', e1, e6, e2, e4, e5, e3⟩

/-! ### Claim theorems -/

/-- C8: a `CaseRecord` constructed by `add_method` (which passes no explicit
name) has `name` equal to the method's own identifier, `key` equal to that
identifier lowercased, and `qualified_name` (`full_name`) equal to the
lowercased qualified identifier of the method; the record is registered in
`Registry.cases` under that qualified name, carrying the given description
and priority. -/
theorem c8_case_naming (f f' : TestFactory) (m : PyMethod) (d : Str) (p : Option Int)
    (h : addMethod f m d p = (f', none)) :
    ∃ tc, lookupA f'.cases (lowerStr m.qualname) = some tc ∧
      tc.name = m.name ∧ tc.key = lowerStr m.name ∧ tc.full_name = lowerStr m.qualname ∧
      tc.description = d ∧ tc.priority = p ∧ tc.method = m :=
  (addMethod_ok h).2

theorem c8_case_naming_witness :
    ∃ tc,
      lookupA ((addMethod emptyFactory { name := "M".toList, qualname := "K.M".toList }
          ("d".toList) (some 2)).1).cases (lowerStr ("K.M".toList)) = some tc ∧
        tc.name = "M".toList ∧ tc.key = lowerStr ("M".toList) ∧
        tc.full_name = lowerStr ("K.M".toList) ∧ tc.description = "d".toList ∧
        tc.priority = some 2 ∧ tc.method = { name := "M".toList, qualname := "K.M".toList } :=
  c8_case_naming emptyFactory _ { name := "M".toList, qualname := "K.M".toList }
    ("d".toList) (some 2) (by decide)

/-- C5: two method registrations whose qualified names collide after
lowercasing: the second `add_method` fails with the duplicate-case error and
leaves the registry exactly as it was, the first case still registered. -/
theorem c5_duplicate_method (f f1 : TestFactory) (m1 m2 : PyMethod) (d1 d2 : Str)
    (p1 p2 : Option Int) (h1 : addMethod f m1 d1 p1 = (f1, none))
    (hq : lowerStr m2.qualname = lowerStr m1.qualname) :
    addMethod f1 m2 d2 p2 = (f1, some (RegError.duplicateCase (lowerStr m2.qualname))) ∧
    ∃ tc, lookupA f1.cases (lowerStr m1.qualname) = some tc ∧ tc.name = m1.name ∧
      tc.full_name = lowerStr m1.qualname ∧ tc.method = m1 ∧ tc.description = d1 ∧
      tc.priority = p1 := by
  obtain ⟨-, tc, htc, e1, e2, e3, e4, e5, e6⟩ := addMethod_ok h1
  refine ⟨?_, tc, htc, e1, e3, e6, e4, e5⟩
  have hdup : lookupA f1.cases (lowerStr m2.qualname) = some tc := by
    rw [hq]
    exact htc
  exact addMethod_eq_of_dup hdup d2 p2

theorem c5_duplicate_method_witness :
    (addMethod
        ((addMethod emptyFactory { name := "M".toList, qualname := "K.M".toList }
          ("d".toList) (some 2)).1)
        { name := "m".toList, qualname := "k.m".toList } ("e".toList) none =
      ((addMethod emptyFactory { name := "M".toList, qualname := "K.M".toList }
          ("d".toList) (some 2)).1,
        some (RegError.duplicateCase (lowerStr ("k.m".toList))))) ∧
    ∃ tc,
      lookupA ((addMethod emptyFactory { name := "M".toList, qualname := "K.M".toList }
          ("d".toList) (some 2)).1).cases (lowerStr ("K.M".toList)) = some tc ∧
        tc.name = "M".toList ∧ tc.full_name = lowerStr ("K.M".toList) ∧
        tc.method = { name := "M".toList, qualname := "K.M".toList } ∧
        tc.description = "d".toList ∧ tc.priority = some 2 :=
  c5_duplicate_method emptyFactory _ { name := "M".toList, qualname := "K.M".toList }
    { name := "m".toList, qualname := "k.m".toList } ("d".toList) ("e".toList)
    (some 2) none (by decide) (by decide)

/-- C4: an `add_class` call whose computed suite key was already registered
by a previous successful `add_class` fails with the duplicate-suite error,
leaves the registry exactly as it was (so the previously registered suite is
unchanged), and `Registry.suites` has exactly one binding for that key. -/
theorem c4_duplicate_suite (f f1 : TestFactory) (cls1 cls2 : PyClass)
    (a1 a2 c1 c2 : Option Str) (d1 d2 : Str) (t1 t2 : List Str) (n1 n2 : Option Str)
    (h1 : addClass f cls1 a1 c1 d1 t1 n1 = (f1, none))
    (hk : suiteKeyOf cls2 n2 = suiteKeyOf cls1 n1) :
    addClass f1 cls2 a2 c2 d2 t2 n2 =
      (f1, some (RegError.duplicateSuite (suiteKeyOf cls2 n2))) ∧
    countKey f1.suites (suiteKeyOf cls1 n1) = 1 := by
  cases hl : lookupA f.suites (suiteKeyOf cls1 n1) with
  | some ts =>
    rw [addClass_eq_of_dup hl] at h1
    exact absurd (congrArg Prod.snd h1) (by simp)
  | none =>
    rw [addClass_eq_of_fresh hl] at h1
    have hf1 : f1 = (scanAttach (suiteKeyOf cls1 n1) (suiteKeyOf cls1 n1 ++ ['.'])
        { f with suites :=
            f.suites ++ [(suiteKeyOf cls1 n1, mkTestSuiteData cls1 a1 c1 d1 t1 [])] }
        f.cases).1 := (congrArg Prod.fst h1).symm
    have hkeys : f1.suites.map Prod.fst =
        (f.suites ++ [(suiteKeyOf cls1 n1, mkTestSuiteData cls1 a1 c1 d1 t1 [])]).map
          Prod.fst := by
      rw [hf1]
      exact scanAttach_keys_suites _ _ _ _
    have hcount : countKey f1.suites (suiteKeyOf cls1 n1) = 1 := by
      rw [countKey, hkeys, ← countKey, countKey_append]
      rw [(countKey_eq_zero_iff _ _).mpr ((lookupA_eq_none_iff _ _).mp hl)]
      simp [countKey]
    refine ⟨?_, hcount⟩
    have hbase : lookupA
        (f.suites ++ [(suiteKeyOf cls1 n1, mkTestSuiteData cls1 a1 c1 d1 t1 [])])
        (suiteKeyOf cls1 n1) = some (mkTestSuiteData cls1 a1 c1 d1 t1 []) := by
      rw [lookupA_append_of_none hl, lookupA_cons, if_pos rfl]
    have hbase2 : lookupA ({ f with suites :=
        f.suites ++ [(suiteKeyOf cls1 n1, mkTestSuiteData cls1 a1 c1 d1 t1 [])] }
          : TestFactory).suites (suiteKeyOf cls1 n1) =
        some (mkTestSuiteData cls1 a1 c1 d1 t1 []) := hbase
    obtain ⟨ts', hts', -⟩ := scanAttach_suiteExtends _ _ f.cases _ hbase2
    rw [← hf1] at hts'
    have hts2 : lookupA f1.suites (suiteKeyOf cls2 n2) = some ts' := by
      rw [hk]
      exact hts'
    exact addClass_eq_of_dup hts2 a2 c2 d2 t2

theorem c4_duplicate_suite_witness :
    (addClass ((addClass emptyFactory { name := "K".toList } none none ("d".toList) []
          none).1)
        { name := "Q".toList } none none ("e".toList) [] (some ("k".toList)) =
      ((addClass emptyFactory { name := "K".toList } none none ("d".toList) [] none).1,
        some (RegError.duplicateSuite (suiteKeyOf { name := "Q".toList }
          (some ("k".toList)))))) ∧
    countKey ((addClass emptyFactory { name := "K".toList } none none ("d".toList) []
        none).1).suites (suiteKeyOf { name := "K".toList } none) = 1 :=
  c4_duplicate_suite emptyFactory _ { name := "K".toList } { name := "Q".toList }
    none none none none ("d".toList) ("e".toList) [] [] none (some ("k".toList))
    (by decide) (by decide)

/-- C10: `add_class` with the explicit name `""` keeps it (only `None` is
defaulted): the suite is registered under the key `""`, while the stored
`SuiteRecord`'s own `name` and `key` are derived from the class identifier;
any subsequent `add_class` with the empty explicit name then fails with the
duplicate-suite error for key `""`, whatever its class. -/
theorem c10_empty_explicit_name (f : TestFactory) (cls : PyClass) (a c : Option Str)
    (d : Str) (t : List Str) (h0 : lookupA f.suites [] = none) :
    (∃ ts, lookupA (addClass f cls a c d t (some [])).1.suites [] = some ts ∧
      ts.name = cls.name ∧ ts.key = lowerStr cls.name) ∧
    ∀ (cls2 : PyClass) (a2 c2 : Option Str) (d2 : Str) (t2 : List Str),
      addClass (addClass f cls a c d t (some [])).1 cls2 a2 c2 d2 t2 (some []) =
        ((addClass f cls a c d t (some [])).1, some (RegError.duplicateSuite [])) := by
  have hkey : suiteKeyOf cls (some []) = [] := rfl
  have h0' : lookupA f.suites (suiteKeyOf cls (some [])) = none := by
    rw [hkey]
    exact h0
  rw [addClass_eq_of_fresh h0']
  have hbase : lookupA ({ f with suites :=
      f.suites ++ [(suiteKeyOf cls (some []), mkTestSuiteData cls a c d t [])] }
        : TestFactory).suites (suiteKeyOf cls (some [])) =
      some (mkTestSuiteData cls a c d t []) := by
    show lookupA (f.suites ++ _) _ = _
    rw [lookupA_append_of_none h0', lookupA_cons, if_pos rfl]
  obtain ⟨ts', hts', hext⟩ := scanAttach_suiteExtends _ _ f.cases _ hbase
  rw [hkey] at hts'
  refine ⟨⟨ts', hts', ?_, ?_⟩, ?_⟩
  · rw [hext.2.1]
    rfl
  · rw [hext.2.2.1]
    rfl
  · intro cls2 a2 c2 d2 t2
    have hts2 : lookupA (scanAttach (suiteKeyOf cls (some []))
        (suiteKeyOf cls (some []) ++ ['.'])
        { f with suites :=
            f.suites ++ [(suiteKeyOf cls (some []), mkTestSuiteData cls a c d t [])] }
        f.cases).1.suites (suiteKeyOf cls2 (some [])) = some ts' := hts'
    exact addClass_eq_of_dup hts2 a2 c2 d2 t2

theorem c10_empty_explicit_name_witness :
    (∃ ts, lookupA (addClass emptyFactory { name := "F".toList } none none ("d".toList) []
        (some [])).1.suites [] = some ts ∧
      ts.name = "F".toList ∧ ts.key = lowerStr ("F".toList)) ∧
    ∀ (cls2 : PyClass) (a2 c2 : Option Str) (d2 : Str) (t2 : List Str),
      addClass (addClass emptyFactory { name := "F".toList } none none ("d".toList) []
          (some [])).1 cls2 a2 c2 d2 t2 (some []) =
        ((addClass emptyFactory { name := "F".toList } none none ("d".toList) []
          (some [])).1, some (RegError.duplicateSuite [])) :=
  c10_empty_explicit_name emptyFactory { name := "F".toList } none none ("d".toList) []
    (by decide)

/-- C3 counter-evidence (code bug): `add_class` computes the suite name and
key from the explicit name, but constructs the `TestSuiteData` without
forwarding the name, so for an explicit name `"Bar"` on a class `Foo` the
record stored under the registry key `"bar"` carries `name = "Foo"` and
`key = "foo"`, a key different from the key it is stored under. -/
theorem c3_suite_record_name_mismatch :
    lookupA (addClass emptyFactory { name := "Foo".toList } none none [] []
        (some ("Bar".toList))).1.suites ("bar".toList) =
      some { test_class := PyClass.mk ("Foo".toList)
             name := "Foo".toList
             key := "foo".toList
             area := none
             category := none
             description := []
             tags := []
             cases := [] } ∧
    ("foo".toList : Str) ≠ "bar".toList := by
  exact ⟨by decide, by decide⟩

/-! ### Attachment persistence through the scan -/

theorem addCaseToSuite_preserves_attached {f : TestFactory} {k ck q : Str}
    (h1 : ∃ ts, lookupA f.suites k = some ts ∧ lookupA ts.cases ck = some q)
    (h2 : ∃ tc, lookupA f.cases q = some tc ∧ tc.suite = some k)
    (ck' q' : Str) :
    (∃ ts, lookupA (addCaseToSuite f k ck' q').1.suites k = some ts ∧
      lookupA ts.cases ck = some q) ∧
    ∃ tc, lookupA (addCaseToSuite f k ck' q').1.cases q = some tc ∧ tc.suite = some k := by
  obtain ⟨ts, hts, hck⟩ := h1
  obtain ⟨tc, htc, hsu⟩ := h2
  cases hl : lookupA f.suites k with
  | none =>
    rw [addCaseToSuite_eq_noSuite hl]
    exact ⟨⟨ts, hts, hck⟩, tc, htc, hsu⟩
  | some ts0 =>
    cases hl2 : lookupA ts0.cases ck' with
    | some q0 =>
      rw [addCaseToSuite_eq_dup hl hl2]
      exact ⟨⟨ts, hts, hck⟩, tc, htc, hsu⟩
    | none =>
      rw [addCaseToSuite_eq_ok hl hl2]
      dsimp only
      have hts0 : ts = ts0 := by
        rw [hts] at hl
        exact (Option.some.injEq _ _).mp hl
      subst hts0
      constructor
      · refine ⟨{ ts with cases := ts.cases ++ [(ck', q')] }, ?_, ?_⟩
        · rw [lookupA_updateA, if_pos rfl, hts]
          rfl
        · show lookupA (ts.cases ++ [(ck', q')]) ck = some q
          exact lookupA_append_of_some hck _
      · rw [lookupA_updateA]
        by_cases hq : q = q'
        · rw [if_pos hq, htc]
          exact ⟨setSuiteRef k tc, rfl, rfl⟩
        · rw [if_neg hq, htc]
          exact ⟨tc, rfl, hsu⟩

theorem scanAttach_preserves_attached (k pre : Str) :
    ∀ (l : List (Str × TestCaseData)) (f : TestFactory) {ck q : Str},
      (∃ ts, lookupA f.suites k = some ts ∧ lookupA ts.cases ck = some q) →
      (∃ tc, lookupA f.cases q = some tc ∧ tc.suite = some k) →
      (∃ ts, lookupA (scanAttach k pre f l).1.suites k = some ts ∧
        lookupA ts.cases ck = some q) ∧
      ∃ tc, lookupA (scanAttach k pre f l).1.cases q = some tc ∧ tc.suite = some k := by
  intro l
  induction l with
  | nil =>
    intro f ck q h1 h2
    exact ⟨h1, h2⟩
  | cons p rest ih =>
    intro f ck q h1 h2
    obtain ⟨q0, tc0⟩ := p
    by_cases hm : pre.isPrefixOf tc0.full_name
    · rw [scanAttach_cons_match hm]
      cases hatt : addCaseToSuite f k tc0.key q0 with
      | mk f1 e =>
        have hstep := addCaseToSuite_preserves_attached h1 h2 tc0.key q0
        rw [hatt] at hstep
        cases e with
        | none => exact ih f1 hstep.1 hstep.2
        | some err => exact hstep
    · rw [scanAttach_cons_skip hm]
      exact ih f h1 h2

theorem scanAttach_attaches (k pre : Str) :
    ∀ (l : List (Str × TestCaseData)) (f f' : TestFactory) (q : Str) (tc : TestCaseData),
      scanAttach k pre f l = (f', none) →
      (q, tc) ∈ l →
      pre.isPrefixOf tc.full_name = true →
      lookupA f.suites k ≠ none →
      lookupA f.cases q ≠ none →
      (∃ ts, lookupA f'.suites k = some ts ∧ lookupA ts.cases tc.key = some q) ∧
      ∃ tc', lookupA f'.cases q = some tc' ∧ tc'.suite = some k := by
  intro l
  induction l with
  | nil =>
    intro f f' q tc _ hmem
    cases hmem
  | cons p rest ih =>
    intro f f' q tc hscan hmem hpre hsk hcq
    obtain ⟨q0, tc0⟩ := p
    rcases List.mem_cons.mp hmem with hhead | htail
    · injection hhead with hq0 htc0
      subst hq0
      subst htc0
      rw [scanAttach_cons_match hpre] at hscan
      cases hatt : addCaseToSuite f k tc.key q with
      | mk f1 e =>
        rw [hatt] at hscan
        cases e with
        | some err =>
          dsimp only at hscan
          exact absurd (congrArg Prod.snd hscan) (by simp)
        | none =>
          dsimp only at hscan
          cases hl : lookupA f.suites k with
          | none => exact absurd hl hsk
          | some ts0 =>
            cases hl2 : lookupA ts0.cases tc.key with
            | some qx =>
              rw [addCaseToSuite_eq_dup hl hl2] at hatt
              exact absurd (congrArg Prod.snd hatt) (by simp)
            | none =>
              rw [addCaseToSuite_eq_ok hl hl2] at hatt
              obtain ⟨hf1, -⟩ := Prod.mk.injEq .. ▸ hatt
              have h1 : ∃ ts, lookupA f1.suites k = some ts ∧
                  lookupA ts.cases tc.key = some q := by
                refine ⟨{ ts0 with cases := ts0.cases ++ [(tc.key, q)] }, ?_, ?_⟩
                · rw [← hf1]
                  dsimp only
                  rw [lookupA_updateA, if_pos rfl, hl]
                  rfl
                · show lookupA (ts0.cases ++ [(tc.key, q)]) tc.key = some q
                  rw [lookupA_append_of_none hl2, lookupA_cons, if_pos rfl]
              have h2 : ∃ tc', lookupA f1.cases q = some tc' ∧ tc'.suite = some k := by
                cases hcl : lookupA f.cases q with
                | none => exact absurd hcl hcq
                | some tcq =>
                  refine ⟨setSuiteRef k tcq, ?_, rfl⟩
                  rw [← hf1]
                  dsimp only
                  rw [lookupA_updateA, if_pos rfl, hcl]
                  rfl
              have := scanAttach_preserves_attached k pre rest f1 h1 h2
              rw [hscan] at this
              exact this
    · by_cases hpre0 : pre.isPrefixOf tc0.full_name
      · rw [scanAttach_cons_match hpre0] at hscan
        cases hatt : addCaseToSuite f k tc0.key q0 with
        | mk f1 e =>
          rw [hatt] at hscan
          cases e with
          | some err =>
            dsimp only at hscan
            exact absurd (congrArg Prod.snd hscan) (by simp)
          | none =>
            dsimp only at hscan
            have hsk1 : lookupA f1.suites k ≠ none := by
              rw [lookupA_ne_none_iff] at hsk ⊢
              have := addCaseToSuite_keys_suites f k tc0.key q0
              rw [hatt] at this
              rw [this]
              exact hsk
            have hcq1 : lookupA f1.cases q ≠ none := by
              rw [lookupA_ne_none_iff] at hcq ⊢
              have := addCaseToSuite_keys_cases f k tc0.key q0
              rw [hatt] at this
              rw [this]
              exact hcq
            exact ih f1 f' q tc hscan htail hpre hsk1 hcq1
      · rw [scanAttach_cons_skip hpre0] at hscan
        exact ih f f' q tc hscan htail hpre hsk hcq

/-- C2: method-before-class reconciliation.  If `add_method` succeeds for a
method whose lowered qualified name is `"<k>.<r>"` and afterwards `add_class`
succeeds for a class whose computed suite key is `k`, then the new suite's
`cases` holds, under the case's key, the reference to the very record stored
in `Registry.cases` under the qualified name (record identity in the model),
and that record's `suite` back reference points at the new suite. -/
theorem c2_method_before_class (f f1 f2 : TestFactory) (m : PyMethod) (d : Str)
    (p : Option Int) (cls : PyClass) (a c : Option Str) (dd : Str) (t : List Str)
    (nm : Option Str) (r : Str)
    (hm : addMethod f m d p = (f1, none))
    (hq : lowerStr m.qualname = suiteKeyOf cls nm ++ '.' :: r)
    (hc : addClass f1 cls a c dd t nm = (f2, none)) :
    ∃ ts, lookupA f2.suites (suiteKeyOf cls nm) = some ts ∧
      lookupA ts.cases (lowerStr m.name) = some (lowerStr m.qualname) ∧
      ∃ tc, lookupA f2.cases (lowerStr m.qualname) = some tc ∧
        tc.suite = some (suiteKeyOf cls nm) := by
  obtain ⟨-, tc1, htc1, e1, e2, e3, e4, e5, e6⟩ := addMethod_ok hm
  cases hl : lookupA f1.suites (suiteKeyOf cls nm) with
  | some ts =>
    rw [addClass_eq_of_dup hl] at hc
    exact absurd (congrArg Prod.snd hc) (by simp)
  | none =>
    rw [addClass_eq_of_fresh hl] at hc
    have hmem : (lowerStr m.qualname, tc1) ∈ f1.cases := lookupA_mem htc1
    have hpre : (suiteKeyOf cls nm ++ ['.']).isPrefixOf tc1.full_name = true := by
      rw [e3, hq]
      exact List.isPrefixOf_iff_prefix.mpr (self_prefix_shape _ r)
    have hsk : lookupA ({ f1 with suites :=
        f1.suites ++ [(suiteKeyOf cls nm, mkTestSuiteData cls a c dd t [])] }
          : TestFactory).suites (suiteKeyOf cls nm) ≠ none := by
      show lookupA (f1.suites ++ _) _ ≠ none
      rw [lookupA_append_of_none hl, lookupA_cons, if_pos rfl]
      simp
    have hcq : lookupA ({ f1 with suites :=
        f1.suites ++ [(suiteKeyOf cls nm, mkTestSuiteData cls a c dd t [])] }
          : TestFactory).cases (lowerStr m.qualname) ≠ none := by
      show lookupA f1.cases _ ≠ none
      rw [htc1]
      simp
    obtain ⟨⟨ts, hts, hcase⟩, tc', htc', hsu⟩ :=
      scanAttach_attaches (suiteKeyOf cls nm) (suiteKeyOf cls nm ++ ['.'])
        f1.cases _ f2 (lowerStr m.qualname) tc1 hc hmem hpre hsk hcq
    rw [e2] at hcase
    exact ⟨ts, hts, hcase, tc', htc', hsu⟩

theorem c2_method_before_class_witness :
    ∃ ts,
      lookupA ((addClass
          ((addMethod emptyFactory
            { name := "verify_cpu_online_offline".toList
              qualname := "CpuSuite.verify_cpu_online_offline".toList }
            ("d".toList) (some 3)).1)
          { name := "CpuSuite".toList } (some ("cpu".toList))
          (some ("functional".toList)) ("d2".toList) [] none).1).suites
        (suiteKeyOf { name := "CpuSuite".toList } none) = some ts ∧
      lookupA ts.cases (lowerStr ("verify_cpu_online_offline".toList)) =
        some (lowerStr ("CpuSuite.verify_cpu_online_offline".toList)) ∧
      ∃ tc,
        lookupA ((addClass
            ((addMethod emptyFactory
              { name := "verify_cpu_online_offline".toList
                qualname := "CpuSuite.verify_cpu_online_offline".toList }
              ("d".toList) (some 3)).1)
            { name := "CpuSuite".toList } (some ("cpu".toList))
            (some ("functional".toList)) ("d2".toList) [] none).1).cases
          (lowerStr ("CpuSuite.verify_cpu_online_offline".toList)) = some tc ∧
        tc.suite = some (suiteKeyOf { name := "CpuSuite".toList } none) :=
  c2_method_before_class emptyFactory
    ((addMethod emptyFactory
      { name := "verify_cpu_online_offline".toList
        qualname := "CpuSuite.verify_cpu_online_offline".toList }
      ("d".toList) (some 3)).1)
    ((addClass
      ((addMethod emptyFactory
        { name := "verify_cpu_online_offline".toList
          qualname := "CpuSuite.verify_cpu_online_offline".toList }
        ("d".toList) (some 3)).1)
      { name := "CpuSuite".toList } (some ("cpu".toList))
      (some ("functional".toList)) ("d2".toList) [] none).1)
    { name := "verify_cpu_online_offline".toList
      qualname := "CpuSuite.verify_cpu_online_offline".toList }
    ("d".toList) (some 3) { name := "CpuSuite".toList } (some ("cpu".toList))
    (some ("functional".toList)) ("d2".toList) [] none
    ("verify_cpu_online_offline".toList) (by decide) (by decide) (by decide)

/-! ### Attached-cases invariant of the scan (holds also at a mid-scan failure) -/

theorem addCaseToSuite_cases_inv {f : TestFactory} {k : Str} (ck' q' : Str)
    (hq' : lookupA f.cases q' ≠ none)
    (hinv : ∀ ts, lookupA f.suites k = some ts → ∀ ck q, lookupA ts.cases ck = some q →
      ∃ tc, lookupA f.cases q = some tc ∧ tc.suite = some k) :
    ∀ ts, lookupA (addCaseToSuite f k ck' q').1.suites k = some ts →
      ∀ ck q, lookupA ts.cases ck = some q →
        ∃ tc, lookupA (addCaseToSuite f k ck' q').1.cases q = some tc ∧
          tc.suite = some k := by
  cases hl : lookupA f.suites k with
  | none =>
    rw [addCaseToSuite_eq_noSuite hl]
    exact hinv
  | some ts0 =>
    cases hl2 : lookupA ts0.cases ck' with
    | some q0 =>
      rw [addCaseToSuite_eq_dup hl hl2]
      exact hinv
    | none =>
      rw [addCaseToSuite_eq_ok hl hl2]
      dsimp only
      intro ts hts ck q hcase
      rw [lookupA_updateA, if_pos rfl, hl] at hts
      have hts' : ts = { ts0 with cases := ts0.cases ++ [(ck', q')] } :=
        ((Option.some.injEq _ _).mp hts).symm
      subst hts'
      rw [lookupA_updateA]
      have hcase' : lookupA (ts0.cases ++ [(ck', q')]) ck = some q := hcase
      rw [lookupA_append] at hcase'
      cases hold : lookupA ts0.cases ck with
      | some qold =>
        rw [hold] at hcase'
        have hq : q = qold := ((Option.some.injEq _ _).mp hcase').symm
        subst hq
        obtain ⟨tc, htc, hsu⟩ := hinv ts0 hl ck q hold
        by_cases hqq : q = q'
        · rw [if_pos hqq, htc]
          exact ⟨setSuiteRef k tc, rfl, rfl⟩
        · rw [if_neg hqq, htc]
          exact ⟨tc, rfl, hsu⟩
      | none =>
        rw [hold] at hcase'
        rw [lookupA_cons] at hcase'
        by_cases hck : ck' = ck
        · rw [if_pos hck] at hcase'
          have hq : q = q' := ((Option.some.injEq _ _).mp hcase').symm
          subst hq
          cases hcl : lookupA f.cases q with
          | none => exact absurd hcl hq'
          | some tcq =>
            rw [if_pos rfl]
            exact ⟨setSuiteRef k tcq, rfl, rfl⟩
        · rw [if_neg hck] at hcase'
          cases hcase'

theorem scanAttach_cases_inv (k pre : Str) :
    ∀ (l : List (Str × TestCaseData)) (f : TestFactory),
      (∀ p ∈ l, lookupA f.cases p.1 ≠ none) →
      (∀ ts, lookupA f.suites k = some ts → ∀ ck q, lookupA ts.cases ck = some q →
        ∃ tc, lookupA f.cases q = some tc ∧ tc.suite = some k) →
      ∀ ts, lookupA (scanAttach k pre f l).1.suites k = some ts →
        ∀ ck q, lookupA ts.cases ck = some q →
          ∃ tc, lookupA (scanAttach k pre f l).1.cases q = some tc ∧
            tc.suite = some k := by
  intro l
  induction l with
  | nil =>
    intro f _ hinv
    exact hinv
  | cons p rest ih =>
    intro f hall hinv
    obtain ⟨q0, tc0⟩ := p
    by_cases hm : pre.isPrefixOf tc0.full_name
    · rw [scanAttach_cons_match hm]
      cases hatt : addCaseToSuite f k tc0.key q0 with
      | mk f1 e =>
        have hq0 : lookupA f.cases q0 ≠ none := hall (q0, tc0) (List.mem_cons_self _ _)
        have hstep := addCaseToSuite_cases_inv tc0.key q0 hq0 hinv
        rw [hatt] at hstep
        cases e with
        | some err =>
          dsimp only
          have hunch : f1 = f := by
            have := addCaseToSuite_err_unchanged (e := err) (by rw [hatt])
            rw [hatt] at this
            exact this
          subst hunch
          exact hstep
        | none =>
          dsimp only
          have hall1 : ∀ p ∈ rest, lookupA f1.cases p.1 ≠ none := by
            intro p hp
            rw [lookupA_ne_none_iff]
            have hkeys := addCaseToSuite_keys_cases f k tc0.key q0
            rw [hatt] at hkeys
            rw [hkeys]
            rw [← lookupA_ne_none_iff]
            exact hall p (List.mem_cons_of_mem _ hp)
          exact ih f1 hall1 hstep
    · rw [scanAttach_cons_skip hm]
      exact ih f (fun p hp => hall p (List.mem_cons_of_mem _ hp)) hinv

/-- C9: when the attachment scan inside `add_class` raises the
duplicate-case-in-suite error, the newly created `SuiteRecord` stays inserted
in `Registry.suites` under the computed key, and every case it attached
before the failure stays attached — present in the suite's `cases` with the
referenced registry record's `suite` back reference set to the new suite —
so the failed call leaves partial state rather than rolling back. -/
theorem c9_partial_state_on_scan_failure (f f' : TestFactory) (cls : PyClass)
    (a c : Option Str) (d : Str) (t : List Str) (nm : Option Str) (ck : Str)
    (h : addClass f cls a c d t nm = (f', some (RegError.duplicateCaseInSuite ck))) :
    ∃ ts, lookupA f'.suites (suiteKeyOf cls nm) = some ts ∧ ts.test_class = cls ∧
      ts.name = cls.name ∧
      ∀ ck' q, lookupA ts.cases ck' = some q →
        ∃ tc, lookupA f'.cases q = some tc ∧ tc.suite = some (suiteKeyOf cls nm) := by
  cases hl : lookupA f.suites (suiteKeyOf cls nm) with
  | some ts0 =>
    rw [addClass_eq_of_dup hl] at h
    exact absurd (congrArg Prod.snd h) (by simp)
  | none =>
    rw [addClass_eq_of_fresh hl] at h
    have hbase : lookupA ({ f with suites :=
        f.suites ++ [(suiteKeyOf cls nm, mkTestSuiteData cls a c d t [])] }
          : TestFactory).suites (suiteKeyOf cls nm) =
        some (mkTestSuiteData cls a c d t []) := by
      show lookupA (f.suites ++ _) _ = _
      rw [lookupA_append_of_none hl, lookupA_cons, if_pos rfl]
    have hf' : (scanAttach (suiteKeyOf cls nm) (suiteKeyOf cls nm ++ ['.'])
        { f with suites :=
            f.suites ++ [(suiteKeyOf cls nm, mkTestSuiteData cls a c d t [])] }
        f.cases).1 = f' := congrArg Prod.fst h
    obtain ⟨ts', hts', hext⟩ := scanAttach_suiteExtends _ _ f.cases _ hbase
    have hinv0 : ∀ ts, lookupA ({ f with suites :=
        f.suites ++ [(suiteKeyOf cls nm, mkTestSuiteData cls a c d t [])] }
          : TestFactory).suites (suiteKeyOf cls nm) = some ts →
        ∀ ck0 q, lookupA ts.cases ck0 = some q →
          ∃ tc, lookupA ({ f with suites :=
            f.suites ++ [(suiteKeyOf cls nm, mkTestSuiteData cls a c d t [])] }
              : TestFactory).cases q = some tc ∧
            tc.suite = some (suiteKeyOf cls nm) := by
      intro ts hts ck0 q hcase
      rw [hbase] at hts
      have : ts = mkTestSuiteData cls a c d t [] := ((Option.some.injEq _ _).mp hts).symm
      subst this
      cases hcase
    have hall : ∀ p ∈ f.cases, lookupA ({ f with suites :=
        f.suites ++ [(suiteKeyOf cls nm, mkTestSuiteData cls a c d t [])] }
          : TestFactory).cases p.1 ≠ none := by
      intro p hp
      show lookupA f.cases p.1 ≠ none
      rw [lookupA_ne_none_iff]
      exact List.mem_map_of_mem Prod.fst hp
    have hinv := scanAttach_cases_inv (suiteKeyOf cls nm) (suiteKeyOf cls nm ++ ['.'])
      f.cases _ hall hinv0
    rw [hf'] at hts' hinv
    refine ⟨ts', hts', ?_, ?_, hinv ts' hts'⟩
    · rw [hext.1]
      rfl
    · rw [hext.2.1]
      rfl

theorem c9_partial_state_witness :
    ∃ ts,
      lookupA ((addClass
          ((addMethod
            ((addMethod emptyFactory { name := "m".toList, qualname := "A.B.m".toList }
              ("d".toList) none).1)
            { name := "m".toList, qualname := "A.C.m".toList } ("d".toList) none).1)
          { name := "A".toList } none none ("d2".toList) [] none).1).suites
        (suiteKeyOf { name := "A".toList } none) = some ts ∧
      ts.test_class = { name := "A".toList } ∧ ts.name = "A".toList ∧
      ∀ ck' q, lookupA ts.cases ck' = some q →
        ∃ tc,
          lookupA ((addClass
              ((addMethod
                ((addMethod emptyFactory { name := "m".toList, qualname := "A.B.m".toList }
                  ("d".toList) none).1)
                { name := "m".toList, qualname := "A.C.m".toList } ("d".toList) none).1)
              { name := "A".toList } none none ("d2".toList) [] none).1).cases q =
            some tc ∧ tc.suite = some (suiteKeyOf { name := "A".toList } none) :=
  c9_partial_state_on_scan_failure
    ((addMethod
      ((addMethod emptyFactory { name := "m".toList, qualname := "A.B.m".toList }
        ("d".toList) none).1)
      { name := "m".toList, qualname := "A.C.m".toList } ("d".toList) none).1)
    ((addClass
      ((addMethod
        ((addMethod emptyFactory { name := "m".toList, qualname := "A.B.m".toList }
          ("d".toList) none).1)
        { name := "m".toList, qualname := "A.C.m".toList } ("d".toList) none).1)
      { name := "A".toList } none none ("d2".toList) [] none).1)
    { name := "A".toList } none none ("d2".toList) [] none ("m".toList) (by decide)

/-! ### Exact characterization of a conflict-free scan -/

theorem setSuiteRef_idem (k : Str) (tc : TestCaseData) :
    setSuiteRef k (setSuiteRef k tc) = setSuiteRef k tc := rfl

theorem setSuiteMany_nil (k : Str) (cs : List (Str × TestCaseData)) :
    setSuiteMany [] k cs = cs := by
  induction cs with
  | nil => rfl
  | cons p rest ih =>
    show (if p.1 ∈ ([] : List Str) then (p.1, setSuiteRef k p.2) else p) ::
      setSuiteMany [] k rest = p :: rest
    rw [if_neg (List.not_mem_nil p.1), ih]

theorem setSuiteMany_cons_entry (qs : List Str) (k : Str) (p : Str × TestCaseData)
    (rest : List (Str × TestCaseData)) :
    setSuiteMany qs k (p :: rest) =
      (if p.1 ∈ qs then (p.1, setSuiteRef k p.2) else p) :: setSuiteMany qs k rest := rfl

theorem keys_setSuiteMany (qs : List Str) (k : Str) (cs : List (Str × TestCaseData)) :
    (setSuiteMany qs k cs).map Prod.fst = cs.map Prod.fst := by
  induction cs with
  | nil => rfl
  | cons p rest ih =>
    rw [setSuiteMany_cons_entry]
    by_cases h : p.1 ∈ qs
    · rw [if_pos h, List.map_cons, List.map_cons, ih]
    · rw [if_neg h, List.map_cons, List.map_cons, ih]

theorem setSuiteMany_cons (qs : List Str) (k : Str) (a : Str) (b : TestCaseData)
    (rest : List (Str × TestCaseData)) :
    setSuiteMany qs k ((a, b) :: rest) =
      (if a ∈ qs then (a, setSuiteRef k b) else (a, b)) :: setSuiteMany qs k rest := by
  by_cases h : a ∈ qs <;> simp [setSuiteMany, h]

theorem lookupA_setSuiteMany (qs : List Str) (k : Str) (cs : List (Str × TestCaseData))
    (q : Str) :
    lookupA (setSuiteMany qs k cs) q =
      (lookupA cs q).map (fun tc => if q ∈ qs then setSuiteRef k tc else tc) := by
  induction cs with
  | nil => rfl
  | cons p rest ih =>
    obtain ⟨a, b⟩ := p
    rw [setSuiteMany_cons]
    by_cases hq : a = q
    · subst hq
      by_cases hm : a ∈ qs
      · rw [if_pos hm, lookupA_cons, if_pos rfl, lookupA_cons, if_pos rfl]
        show some (setSuiteRef k b) = some (if a ∈ qs then setSuiteRef k b else b)
        rw [if_pos hm]
      · rw [if_neg hm, lookupA_cons, if_pos rfl, lookupA_cons, if_pos rfl]
        show some b = some (if a ∈ qs then setSuiteRef k b else b)
        rw [if_neg hm]
    · by_cases hm : a ∈ qs
      · rw [if_pos hm, lookupA_cons, if_neg hq, ih, lookupA_cons, if_neg hq]
      · rw [if_neg hm, lookupA_cons, if_neg hq, ih, lookupA_cons, if_neg hq]

theorem setSuiteMany_updateA (cs : List (Str × TestCaseData)) (q0 : Str) (qs : List Str)
    (k : Str) :
    setSuiteMany qs k (updateA cs q0 (setSuiteRef k)) = setSuiteMany (q0 :: qs) k cs := by
  induction cs with
  | nil => rfl
  | cons p rest ih =>
    obtain ⟨a, b⟩ := p
    rw [updateA_cons]
    by_cases h0 : a = q0
    · rw [if_pos h0, setSuiteMany_cons, setSuiteMany_cons, ih]
      have hmem : a ∈ q0 :: qs := by
        rw [h0]
        exact List.mem_cons_self q0 qs
      rw [if_pos hmem]
      by_cases hm : a ∈ qs
      · rw [if_pos hm]
        rfl
      · rw [if_neg hm]
    · rw [if_neg h0, setSuiteMany_cons, setSuiteMany_cons, ih]
      have hiff : (a ∈ q0 :: qs) ↔ (a ∈ qs) := by
        rw [List.mem_cons]
        exact ⟨fun h => h.resolve_left h0, Or.inr⟩
      by_cases hm : a ∈ qs
      · rw [if_pos hm, if_pos (hiff.mpr hm)]
      · rw [if_neg hm, if_neg (fun hh => hm (hiff.mp hh))]

theorem updateA_lookup_self {α : Type} {l : List (Str × α)} {k : Str} {v : α}
    (hn : (l.map Prod.fst).Nodup) (h : lookupA l k = some v) :
    updateA l k (fun _ => v) = l := by
  induction l with
  | nil => rfl
  | cons p rest ih =>
    obtain ⟨a, b⟩ := p
    rw [List.map_cons, List.nodup_cons] at hn
    rw [updateA_cons]
    by_cases hk : a = k
    · subst hk
      rw [lookupA_cons, if_pos rfl] at h
      have hv : v = b := ((Option.some.injEq _ _).mp h).symm
      subst hv
      rw [if_pos rfl, updateA_of_not_mem hn.1 _]
    · rw [if_neg hk]
      rw [lookupA_cons, if_neg hk] at h
      rw [ih hn.2 h]

theorem nodup_append_singleton {α : Type} {l : List α} {a : α} (ha : a ∉ l)
    (hl : l.Nodup) : (l ++ [a]).Nodup := by
  induction l with
  | nil => simp
  | cons x rest ih =>
    rw [List.mem_cons] at ha
    push_neg at ha
    rw [List.cons_append, List.nodup_cons]
    rw [List.nodup_cons] at hl
    refine ⟨?_, ih ha.2 hl.2⟩
    rw [List.mem_append]
    rintro (hx | hx)
    · exact hl.1 hx
    · rw [List.mem_singleton] at hx
      exact ha.1 hx.symm

theorem matched_keys_nodup {l : List (Str × TestCaseData)}
    (hN : (l.map Prod.fst).Nodup)
    (hshape : ∀ p ∈ l, p.2.full_name = p.1 ∧
      ∃ c, dotFree c ∧ dotFree p.2.key ∧ p.1 = c ++ '.' :: p.2.key) (k : Str) :
    ((l.filter (fun p => (k ++ ['.']).isPrefixOf p.2.full_name)).map
      (fun p => p.2.key)).Nodup := by
  have hnl : l.Nodup := List.Nodup.of_map _ hN
  refine List.Nodup.map_on ?_ (List.Nodup.filter _ hnl)
  intro x hx y hy hkey
  obtain ⟨hxl, hxm⟩ := List.mem_filter.mp hx
  obtain ⟨hyl, hym⟩ := List.mem_filter.mp hy
  obtain ⟨hxf, cx, hcx, hkx, hsx⟩ := hshape x hxl
  obtain ⟨hyf, cy, hcy, hky, hsy⟩ := hshape y hyl
  rw [hxf, hsx] at hxm
  rw [hyf, hsy] at hym
  have hcxk : k = cx := (isPrefixOf_shape_iff hcx hkx k).mp hxm
  have hcyk : k = cy := (isPrefixOf_shape_iff hcy hky k).mp hym
  have hx1y1 : x.1 = y.1 := by
    rw [hsx, hsy, ← hcxk, ← hcyk, hkey]
  exact nodup_keys_inj hN hxl hyl hx1y1

theorem scanAttach_ok_result (k pre : Str) :
    ∀ (l : List (Str × TestCaseData)) (f : TestFactory) (ts : TestSuiteData),
      (f.suites.map Prod.fst).Nodup →
      lookupA f.suites k = some ts →
      (∀ p ∈ l, pre.isPrefixOf p.2.full_name = true → lookupA ts.cases p.2.key = none) →
      ((l.filter (fun p => pre.isPrefixOf p.2.full_name)).map (fun p => p.2.key)).Nodup →
      scanAttach k pre f l =
        ({ suites := updateA f.suites k
              (fun _ => { ts with cases := ts.cases ++ matchedOf pre l })
           cases := setSuiteMany (matchedQs pre l) k f.cases }, none) := by
  intro l
  induction l with
  | nil =>
    intro f ts hnk hts _ _
    rw [scanAttach_nil]
    have h1 : matchedOf pre ([] : List (Str × TestCaseData)) = [] := rfl
    have h2 : matchedQs pre ([] : List (Str × TestCaseData)) = [] := rfl
    rw [h1, h2, setSuiteMany_nil]
    have h3 : { ts with cases := ts.cases ++ [] } = ts := by
      simp
    rw [h3, updateA_lookup_self hnk hts]
  | cons p rest ih =>
    intro f ts hnk hts hok hdk
    obtain ⟨q0, tc0⟩ := p
    by_cases hm : pre.isPrefixOf tc0.full_name
    · have hm2 : (fun (p : Str × TestCaseData) => pre.isPrefixOf p.2.full_name)
          (q0, tc0) = true := hm
      have hmf : matchedOf pre ((q0, tc0) :: rest) = (tc0.key, q0) :: matchedOf pre rest := by
        rw [matchedOf, @List.filter_cons_of_pos _ (fun p => pre.isPrefixOf p.2.full_name)
          (q0, tc0) rest hm2, List.map_cons]
        exact rfl
      have hmq : matchedQs pre ((q0, tc0) :: rest) = q0 :: matchedQs pre rest := by
        rw [matchedQs, @List.filter_cons_of_pos _ (fun p => pre.isPrefixOf p.2.full_name)
          (q0, tc0) rest hm2, List.map_cons]
        exact rfl
      rw [scanAttach_cons_match hm]
      have hfresh : lookupA ts.cases tc0.key = none :=
        hok (q0, tc0) (List.mem_cons_self _ _) hm
      rw [addCaseToSuite_eq_ok hts hfresh]
      dsimp only
      rw [@List.filter_cons_of_pos _ (fun p => pre.isPrefixOf p.2.full_name)
        (q0, tc0) rest hm2, List.map_cons] at hdk
      rw [List.nodup_cons] at hdk
      have hts1 : lookupA (updateA f.suites k
          (fun _ => { ts with cases := ts.cases ++ [(tc0.key, q0)] })) k =
          some { ts with cases := ts.cases ++ [(tc0.key, q0)] } := by
        rw [lookupA_updateA, if_pos rfl, hts]
        rfl
      have hnk1 : ((updateA f.suites k
          (fun _ => { ts with cases := ts.cases ++ [(tc0.key, q0)] })).map
            Prod.fst).Nodup := by
        rw [keys_updateA]
        exact hnk
      have hok1 : ∀ p ∈ rest, pre.isPrefixOf p.2.full_name = true →
          lookupA ({ ts with cases := ts.cases ++ [(tc0.key, q0)] }
            : TestSuiteData).cases p.2.key = none := by
        intro p hp hpm
        show lookupA (ts.cases ++ [(tc0.key, q0)]) p.2.key = none
        rw [lookupA_append_of_none (hok p (List.mem_cons_of_mem _ hp) hpm), lookupA_cons]
        have hne : tc0.key ≠ p.2.key := by
          intro he
          apply hdk.1
          rw [he]
          have hmemf : p ∈ List.filter (fun p => pre.isPrefixOf p.2.full_name) rest :=
            List.mem_filter.mpr ⟨hp, hpm⟩
          exact List.mem_map_of_mem (fun p => p.2.key) hmemf
        rw [if_neg hne]
        rfl
      have hrec := ih
        { suites := updateA f.suites k
            (fun _ => { ts with cases := ts.cases ++ [(tc0.key, q0)] })
          cases := updateA f.cases q0 (setSuiteRef k) }
        { ts with cases := ts.cases ++ [(tc0.key, q0)] } hnk1 hts1 hok1 hdk.2
      rw [hrec]
      dsimp only
      rw [updateA_updateA, setSuiteMany_updateA, hmf, hmq]
      have hcomp : ((fun _ => { ts with cases :=
            (ts.cases ++ [(tc0.key, q0)]) ++ matchedOf pre rest })
          ∘ (fun _ => { ts with cases := ts.cases ++ [(tc0.key, q0)] })) =
          fun (_ : TestSuiteData) =>
            ({ ts with cases := ts.cases ++ ((tc0.key, q0) :: matchedOf pre rest) }
              : TestSuiteData) := by
        funext s
        show ({ ts with cases := (ts.cases ++ [(tc0.key, q0)]) ++ matchedOf pre rest }
          : TestSuiteData) = _
        rw [List.append_assoc]
        rfl
      rw [hcomp]
    · have hm2 : ¬ (fun (p : Str × TestCaseData) => pre.isPrefixOf p.2.full_name)
          (q0, tc0) = true := hm
      have hmf : matchedOf pre ((q0, tc0) :: rest) = matchedOf pre rest := by
        rw [matchedOf, @List.filter_cons_of_neg _ (fun p => pre.isPrefixOf p.2.full_name)
          (q0, tc0) rest hm2]
        exact rfl
      have hmq : matchedQs pre ((q0, tc0) :: rest) = matchedQs pre rest := by
        rw [matchedQs, @List.filter_cons_of_neg _ (fun p => pre.isPrefixOf p.2.full_name)
          (q0, tc0) rest hm2]
        exact rfl
      rw [scanAttach_cons_skip hm, hmf, hmq]
      rw [@List.filter_cons_of_neg _ (fun p => pre.isPrefixOf p.2.full_name)
        (q0, tc0) rest hm2] at hdk
      exact ih f ts hnk hts (fun p hp => hok p (List.mem_cons_of_mem _ hp)) hdk

/-! ### Preservation of well-formedness (one-separator domain) -/

theorem WF_empty : WF emptyFactory := by
  refine ⟨List.nodup_nil, List.nodup_nil, ?_, ?_, ?_⟩ <;> intro p hp <;> cases hp

theorem insert_case_WF {f : TestFactory} {m : PyMethod} (hwf : WF f) (hone : OneSep m)
    (d : Str) (p : Option Int)
    (hfresh : lookupA f.cases (lowerStr m.qualname) = none) :
    WF { f with cases := f.cases ++ [(lowerStr m.qualname, mkTestCaseData m d p [])] } := by
  obtain ⟨hW0, hS0, hW1, hW2, hW3⟩ := hwf
  obtain ⟨c, hc, hn, hq, hfs⟩ := oneSep_shape hone
  refine ⟨?_, hS0, ?_, ?_, ?_⟩
  · show ((f.cases ++ [(lowerStr m.qualname, mkTestCaseData m d p [])]).map Prod.fst).Nodup
    rw [List.map_append]
    exact nodup_append_singleton ((lookupA_eq_none_iff _ _).mp hfresh) hW0
  · intro pr hpr
    rcases List.mem_append.mp hpr with hold | hnew
    · exact hW1 pr hold
    · rw [List.mem_singleton] at hnew
      subst hnew
      exact ⟨rfl, c, hc, hn, hq⟩
  · intro s hs e he
    obtain ⟨he1, he2⟩ := hW2 s hs e he
    refine ⟨he1, ?_⟩
    show lookupA (f.cases ++ _) e.2 ≠ none
    rw [lookupA_ne_none_iff, List.map_append, List.mem_append]
    rw [lookupA_ne_none_iff] at he2
    exact Or.inl he2
  · intro pr hpr s hsu
    rcases List.mem_append.mp hpr with hold | hnew
    · exact hW3 pr hold s hsu
    · rw [List.mem_singleton] at hnew
      subst hnew
      cases hsu

theorem addMethod_step {f : TestFactory} {m : PyMethod} (hwf : WF f) (hone : OneSep m)
    (d : Str) (p : Option Int) :
    ((addMethod f m d p).2 ≠ none → (addMethod f m d p).1 = f) ∧
      WF (addMethod f m d p).1 ∧ Extends f (addMethod f m d p).1 := by
  obtain ⟨c, hc, hn, hq, hfs⟩ := oneSep_shape hone
  cases hl : lookupA f.cases (lowerStr m.qualname) with
  | some tc0 =>
    rw [addMethod_eq_of_dup hl]
    exact ⟨fun _ => rfl, hwf, extends_refl f⟩
  | none =>
    have hwf1 := insert_case_WF hwf hone d p hl
    have hext1 : Extends f
        { f with cases := f.cases ++ [(lowerStr m.qualname, mkTestCaseData m d p [])] } := by
      refine ⟨fun k ts h => ⟨ts, h, suiteExtends_refl ts⟩, fun q tc h => ?_⟩
      exact ⟨tc, lookupA_append_of_some h _, caseExtends_refl tc⟩
    cases hs : lookupA f.suites (firstSeg (lowerStr m.qualname)) with
    | none =>
      rw [addMethod_eq_of_fresh_noSuite hl hs]
      refine ⟨fun h => absurd rfl h, hwf1, hext1⟩
    | some ts =>
      rw [addMethod_eq_of_fresh_suite hl hs]
      have hs1 : lookupA ({ f with cases :=
          f.cases ++ [(lowerStr m.qualname, mkTestCaseData m d p [])] }
            : TestFactory).suites (firstSeg (lowerStr m.qualname)) = some ts := hs
      cases hl2 : lookupA ts.cases (lowerStr m.name) with
      | some q2 =>
        exfalso
        have hmemS : (firstSeg (lowerStr m.qualname), ts) ∈ f.suites := lookupA_mem hs
        have hmemE : (lowerStr m.name, q2) ∈ ts.cases := lookupA_mem hl2
        obtain ⟨he1, he2⟩ := hwf.2.2.2.1 _ hmemS _ hmemE
        have he1' : q2 = firstSeg (lowerStr m.qualname) ++ '.' :: lowerStr m.name := he1
        have he2' : lookupA f.cases q2 ≠ none := he2
        apply he2'
        have hq2 : q2 = lowerStr m.qualname := by
          rw [he1', hfs, hq]
        rw [hq2]
        exact hl
      | none =>
        rw [addCaseToSuite_eq_ok hs1 hl2 (lowerStr m.qualname)]
        dsimp only
        set q := lowerStr m.qualname with hqdef
        set nk := lowerStr m.name with hnkdef
        set cs1 := f.cases ++ [(q, mkTestCaseData m d p [])] with hcs1
        constructor
        · intro h
          exact absurd rfl h
        obtain ⟨hW0, hS0, hW1, hW2, hW3⟩ := hwf
        obtain ⟨hW0', hS0', hW1', hW2', hW3'⟩ := hwf1
        have hkeyfresh : q ∉ f.cases.map Prod.fst := (lookupA_eq_none_iff _ _).mp hl
        constructor
        · -- WF of the attached state
          refine ⟨?_, ?_, ?_, ?_, ?_⟩
          · dsimp only
            rw [keys_updateA]
            exact hW0'
          · dsimp only
            rw [keys_updateA]
            exact hS0
          · intro pr hpr
            obtain ⟨p0, hp0, hp0e⟩ := List.mem_map.mp hpr
            by_cases hk : p0.1 = q
            · rw [if_pos hk] at hp0e
              obtain ⟨e1, c1, hc1, hn1, hq1⟩ := hW1' p0 hp0
              rw [← hp0e]
              exact ⟨e1, c1, hc1, hn1, hq1⟩
            · rw [if_neg hk] at hp0e
              rw [← hp0e]
              exact hW1' p0 hp0
          · intro s hsm e he
            obtain ⟨s0, hs0, hs0e⟩ := List.mem_map.mp hsm
            have hkeys : lookupA (updateA cs1 q (setSuiteRef (firstSeg q))) e.2 ≠ none ↔
                lookupA cs1 e.2 ≠ none := by
              rw [lookupA_ne_none_iff, lookupA_ne_none_iff, keys_updateA]
            by_cases hk : s0.1 = firstSeg q
            · rw [if_pos hk] at hs0e
              rw [← hs0e] at he ⊢
              dsimp only at he ⊢
              have hts0 : s0.2 = ts := by
                have := lookupA_of_mem_nodup hS0 (show (s0.1, s0.2) ∈ f.suites from hs0)
                rw [hk, hs] at this
                exact ((Option.some.injEq _ _).mp this).symm
              rcases List.mem_append.mp he with hold | hnew
              · obtain ⟨he1, he2⟩ := hW2 s0 hs0 e (by rw [hts0]; exact hold)
                refine ⟨he1, ?_⟩
                rw [hkeys]
                show lookupA cs1 e.2 ≠ none
                rw [lookupA_ne_none_iff, hcs1, List.map_append, List.mem_append]
                rw [lookupA_ne_none_iff] at he2
                exact Or.inl he2
              · rw [List.mem_singleton] at hnew
                subst hnew
                refine ⟨?_, ?_⟩
                · show q = s0.1 ++ '.' :: nk
                  rw [hk, hfs, hq]
                · rw [hkeys]
                  show lookupA cs1 q ≠ none
                  rw [lookupA_ne_none_iff, hcs1, List.map_append, List.mem_append]
                  right
                  exact List.mem_singleton.mpr rfl
            · rw [if_neg hk] at hs0e
              rw [← hs0e] at he ⊢
              obtain ⟨he1, he2⟩ := hW2' s0 hs0 e he
              refine ⟨he1, ?_⟩
              rw [hkeys]
              exact he2
          · intro pr hpr s hsu
            obtain ⟨p0, hp0, hp0e⟩ := List.mem_map.mp hpr
            have hsk : ∀ s', lookupA (updateA f.suites (firstSeg q)
                (fun _ => { ts with cases := ts.cases ++ [(nk, q)] })) s' ≠ none ↔
                lookupA f.suites s' ≠ none := by
              intro s'
              rw [lookupA_ne_none_iff, lookupA_ne_none_iff, keys_updateA]
            by_cases hk : p0.1 = q
            · rw [if_pos hk] at hp0e
              rcases List.mem_append.mp hp0 with hold | hnew
              · exfalso
                apply hkeyfresh
                rw [← hk]
                exact List.mem_map_of_mem Prod.fst hold
              · rw [List.mem_singleton] at hnew
                rw [← hp0e] at hsu ⊢
                dsimp only at hsu ⊢
                rw [hnew] at hsu ⊢
                have : s = firstSeg q := by
                  have : (setSuiteRef (firstSeg q) (mkTestCaseData m d p [])).suite =
                      some (firstSeg q) := rfl
                  rw [this] at hsu
                  exact ((Option.some.injEq _ _).mp hsu).symm
                subst this
                refine ⟨?_, ?_⟩
                · rw [hsk]
                  rw [hs]
                  simp
                · rfl
            · rw [if_neg hk] at hp0e
              rw [← hp0e] at hsu ⊢
              obtain ⟨hx1, hx2⟩ := hW3' p0 hp0 s hsu
              refine ⟨?_, hx2⟩
              rw [hsk]
              exact hx1
        · -- Extends
          refine ⟨fun k' ts' h => ?_, fun q' tc' h => ?_⟩
          · rw [lookupA_updateA]
            by_cases hk : k' = firstSeg q
            · rw [if_pos hk]
              have hts' : ts' = ts := by
                rw [hk] at h
                rw [h] at hs
                exact (Option.some.injEq _ _).mp hs
              subst hts'
              rw [hk, hs]
              refine ⟨_, rfl, rfl, rfl, rfl, rfl, rfl, rfl, rfl, fun ck0 q0 hq0 => ?_⟩
              show lookupA (ts'.cases ++ [(nk, q)]) ck0 = some q0
              exact lookupA_append_of_some hq0 _
            · rw [if_neg hk]
              exact ⟨ts', h, suiteExtends_refl ts'⟩
          · rw [lookupA_updateA]
            by_cases hk : q' = q
            · exfalso
              rw [hk, hl] at h
              cases h
            · rw [if_neg hk]
              exact ⟨tc', lookupA_append_of_some h _, caseExtends_refl tc'⟩

theorem updateA_append {α : Type} (l₁ l₂ : List (Str × α)) (k : Str) (g : α → α) :
    updateA (l₁ ++ l₂) k g = updateA l₁ k g ++ updateA l₂ k g :=
  List.map_append _ l₁ l₂

theorem updateA_append_fresh {α : Type} {l : List (Str × α)} {k : Str}
    (h : k ∉ l.map Prod.fst) (v : α) (g : α → α) :
    updateA (l ++ [(k, v)]) k g = l ++ [(k, g v)] := by
  rw [updateA_append, updateA_of_not_mem h, updateA_cons, if_pos rfl]
  rfl

theorem lookupA_append_singleton_ne {α : Type} (l : List (Str × α)) (k k' : Str) (v : α) :
    (lookupA (l ++ [(k, v)]) k' ≠ none) ↔ (lookupA l k' ≠ none ∨ k' = k) := by
  rw [lookupA_ne_none_iff, List.map_append, List.mem_append, ← lookupA_ne_none_iff]
  have hone : List.map Prod.fst [(k, v)] = [k] := rfl
  rw [hone]
  constructor
  · rintro (h | h)
    · exact Or.inl h
    · rw [List.mem_singleton] at h
      exact Or.inr h
  · rintro (h | h)
    · exact Or.inl h
    · right
      rw [List.mem_singleton]
      exact h

theorem addClass_step {f : TestFactory} (hwf : WF f) (cls : PyClass) (a cat : Option Str)
    (d : Str) (t : List Str) (nm : Option Str) :
    ((addClass f cls a cat d t nm).2 ≠ none → (addClass f cls a cat d t nm).1 = f) ∧
      WF (addClass f cls a cat d t nm).1 ∧ Extends f (addClass f cls a cat d t nm).1 := by
  obtain ⟨hW0, hS0, hW1, hW2, hW3⟩ := hwf
  cases hl : lookupA f.suites (suiteKeyOf cls nm) with
  | some ts =>
    rw [addClass_eq_of_dup hl]
    exact ⟨fun _ => rfl, ⟨hW0, hS0, hW1, hW2, hW3⟩, extends_refl f⟩
  | none =>
    rw [addClass_eq_of_fresh hl]
    have hkeyfresh : suiteKeyOf cls nm ∉ f.suites.map Prod.fst :=
      (lookupA_eq_none_iff _ _).mp hl
    have hnk1 : ((({ f with suites := f.suites ++
        [(suiteKeyOf cls nm, mkTestSuiteData cls a cat d t [])] } : TestFactory)).suites.map
          Prod.fst).Nodup := by
      show ((f.suites ++ _).map Prod.fst).Nodup
      rw [List.map_append]
      exact nodup_append_singleton hkeyfresh hS0
    have hts1 : lookupA (({ f with suites := f.suites ++
        [(suiteKeyOf cls nm, mkTestSuiteData cls a cat d t [])] } : TestFactory)).suites
          (suiteKeyOf cls nm) = some (mkTestSuiteData cls a cat d t []) := by
      show lookupA (f.suites ++ _) _ = _
      rw [lookupA_append_of_none hl, lookupA_cons, if_pos rfl]
    have hok1 : ∀ p ∈ f.cases,
        (suiteKeyOf cls nm ++ ['.']).isPrefixOf p.2.full_name = true →
        lookupA (mkTestSuiteData cls a cat d t []).cases p.2.key = none := by
      intro p _ _
      rfl
    have hdk1 := matched_keys_nodup hW0 hW1 (suiteKeyOf cls nm)
    have hres := scanAttach_ok_result (suiteKeyOf cls nm) (suiteKeyOf cls nm ++ ['.'])
      f.cases _ (mkTestSuiteData cls a cat d t []) hnk1 hts1 hok1 hdk1
    rw [hres]
    dsimp only
    constructor
    · intro h
      exact absurd rfl h
    have hqs_matched : ∀ p ∈ f.cases,
        p.1 ∈ matchedQs (suiteKeyOf cls nm ++ ['.']) f.cases →
        (suiteKeyOf cls nm ++ ['.']).isPrefixOf p.2.full_name = true ∧
          firstSeg p.1 = suiteKeyOf cls nm := by
      intro p hp hmem
      obtain ⟨p2, hp2f, hp2e⟩ := List.mem_map.mp hmem
      obtain ⟨hp2l, hp2m⟩ := List.mem_filter.mp hp2f
      have hpp : p2 = p := nodup_keys_inj hW0 hp2l hp hp2e
      subst hpp
      obtain ⟨hfeq, cp, hcp, hkp, hsp⟩ := hW1 p2 hp2l
      refine ⟨hp2m, ?_⟩
      have hck : suiteKeyOf cls nm = cp := by
        rw [hfeq, hsp] at hp2m
        exact (isPrefixOf_shape_iff hcp hkp _).mp hp2m
      rw [hsp, firstSeg_shape hcp, hck]
    constructor
    · -- WF of the scan result
      refine ⟨?_, ?_, ?_, ?_, ?_⟩
      · rw [keys_setSuiteMany]
        exact hW0
      · rw [updateA_append_fresh hkeyfresh, List.map_append]
        exact nodup_append_singleton hkeyfresh hS0
      · intro pr hpr
        obtain ⟨p0, hp0, hp0e⟩ := List.mem_map.mp hpr
        by_cases hk : p0.1 ∈ matchedQs (suiteKeyOf cls nm ++ ['.']) f.cases
        · rw [if_pos hk] at hp0e
          obtain ⟨e1, c1, hc1, hn1, hq1⟩ := hW1 p0 hp0
          rw [← hp0e]
          exact ⟨e1, c1, hc1, hn1, hq1⟩
        · rw [if_neg hk] at hp0e
          rw [← hp0e]
          exact hW1 p0 hp0
      · intro s hsm e he
        rw [updateA_append_fresh hkeyfresh] at hsm
        have hck : ∀ x, lookupA (setSuiteMany
            (matchedQs (suiteKeyOf cls nm ++ ['.']) f.cases)
            (suiteKeyOf cls nm) f.cases) x ≠ none ↔ lookupA f.cases x ≠ none := by
          intro x
          rw [lookupA_ne_none_iff, lookupA_ne_none_iff, keys_setSuiteMany]
        rcases List.mem_append.mp hsm with hold | hnew
        · obtain ⟨he1, he2⟩ := hW2 s hold e he
          exact ⟨he1, (hck e.2).mpr he2⟩
        · rw [List.mem_singleton] at hnew
          subst hnew
          dsimp only at he
          have he' : e ∈ matchedOf (suiteKeyOf cls nm ++ ['.']) f.cases := he
          obtain ⟨p0, hp0f, hp0e⟩ := List.mem_map.mp he'
          obtain ⟨hp0l, hp0m⟩ := List.mem_filter.mp hp0f
          obtain ⟨hfeq, cp, hcp, hkp, hsp⟩ := hW1 p0 hp0l
          have hck0 : suiteKeyOf cls nm = cp := by
            rw [hfeq, hsp] at hp0m
            exact (isPrefixOf_shape_iff hcp hkp _).mp hp0m
          refine ⟨?_, ?_⟩
          · rw [← hp0e]
            dsimp only
            rw [hsp, ← hck0]
          · rw [← hp0e]
            apply (hck p0.1).mpr
            rw [lookupA_ne_none_iff]
            exact List.mem_map_of_mem Prod.fst hp0l
      · intro pr hpr s hsu
        obtain ⟨p0, hp0, hp0e⟩ := List.mem_map.mp hpr
        by_cases hk : p0.1 ∈ matchedQs (suiteKeyOf cls nm ++ ['.']) f.cases
        · rw [if_pos hk] at hp0e
          rw [← hp0e] at hsu ⊢
          dsimp only at hsu ⊢
          have hsukey : s = suiteKeyOf cls nm := by
            have hrfl : (setSuiteRef (suiteKeyOf cls nm) p0.2).suite =
                some (suiteKeyOf cls nm) := rfl
            rw [hrfl] at hsu
            exact ((Option.some.injEq _ _).mp hsu).symm
          subst hsukey
          refine ⟨?_, ?_⟩
          · rw [updateA_append_fresh hkeyfresh, lookupA_append_singleton_ne]
            exact Or.inr rfl
          · exact ((hqs_matched p0 hp0 hk).2).symm
        · rw [if_neg hk] at hp0e
          rw [← hp0e] at hsu ⊢
          obtain ⟨hx1, hx2⟩ := hW3 p0 hp0 s hsu
          refine ⟨?_, hx2⟩
          rw [updateA_append_fresh hkeyfresh, lookupA_append_singleton_ne]
          exact Or.inl hx1
    · -- Extends
      refine ⟨fun k' ts' h => ?_, fun q' tc h => ?_⟩
      · rw [updateA_append_fresh hkeyfresh]
        exact ⟨ts', lookupA_append_of_some h _, suiteExtends_refl ts'⟩
      · rw [lookupA_setSuiteMany, h, Option.map_some']
        by_cases hk : q' ∈ matchedQs (suiteKeyOf cls nm ++ ['.']) f.cases
        · refine ⟨_, rfl, ?_⟩
          rw [if_pos hk]
          refine ⟨rfl, rfl, rfl, rfl, rfl, rfl, fun s hsu => ?_⟩
          exfalso
          obtain ⟨hx1, hx2⟩ := hW3 (q', tc) (lookupA_mem h) s hsu
          obtain ⟨-, hfsg⟩ := hqs_matched (q', tc) (lookupA_mem h) hk
          apply hx1
          rw [hx2]
          show lookupA f.suites (firstSeg q') = none
          rw [hfsg]
          exact hl
        · refine ⟨_, rfl, ?_⟩
          rw [if_neg hk]
          exact caseExtends_refl tc

theorem execOp_step {f : TestFactory} {op : Op} (hwf : WF f) (hone : OneSepOp op) :
    ((execOp f op).2 ≠ none → (execOp f op).1 = f) ∧
      WF (execOp f op).1 ∧ Extends f (execOp f op).1 := by
  cases op with
  | clsOp c a cat d t n => exact addClass_step hwf c a cat d t n
  | mthOp m d p => exact addMethod_step hwf hone d p

theorem runOps_WF_extends :
    ∀ (ops : List Op) (f : TestFactory), WF f → (∀ o ∈ ops, OneSepOp o) →
      WF (runOps f ops) ∧ Extends f (runOps f ops) := by
  intro ops
  induction ops with
  | nil =>
    intro f hwf _
    exact ⟨hwf, extends_refl f⟩
  | cons op rest ih =>
    intro f hwf hops
    have hstep := execOp_step hwf (hops op (List.mem_cons_self _ _))
    have hrec := ih (execOp f op).1 hstep.2.1 (fun o ho => hops o (List.mem_cons_of_mem _ ho))
    exact ⟨hrec.1, extends_trans hstep.2.2 hrec.2⟩

theorem runOps_append : ∀ (l₁ l₂ : List Op) (f : TestFactory),
    runOps f (l₁ ++ l₂) = runOps (runOps f l₁) l₂ := by
  intro l₁
  induction l₁ with
  | nil => intro l₂ f; rfl
  | cons op rest ih =>
    intro l₂ f
    rw [List.cons_append]
    show runOps (execOp f op).1 (rest ++ l₂) = _
    rw [ih]
    rfl

/-- C6: in the one-separator domain (the spec's explicit constraint on
qualified names), every `add_class` or `add_method` call that fails, issued
against any state reachable from the empty registry by one-separator
registration calls, leaves the entire registry exactly as it was. -/
theorem c6_failure_leaves_state_unchanged (ops : List Op) (op : Op) (f' : TestFactory)
    (e : RegError) (hops : ∀ o ∈ ops, OneSepOp o) (hop : OneSepOp op)
    (hfail : execOp (runOps emptyFactory ops) op = (f', some e)) :
    f' = runOps emptyFactory ops := by
  have hwf : WF (runOps emptyFactory ops) :=
    (runOps_WF_extends ops emptyFactory WF_empty hops).1
  have h2 : (execOp (runOps emptyFactory ops) op).2 ≠ none := by
    rw [hfail]
    simp
  have h1 := (execOp_step hwf hop).1 h2
  rw [hfail] at h1
  exact h1

theorem c6_failure_witness :
    (execOp (runOps emptyFactory
        [Op.mthOp { name := "M".toList, qualname := "K.M".toList } ("d".toList) (some 2)])
      (Op.mthOp { name := "m".toList, qualname := "k.m".toList } ("e".toList) none)).1 =
      runOps emptyFactory
        [Op.mthOp { name := "M".toList, qualname := "K.M".toList } ("d".toList) (some 2)] :=
  c6_failure_leaves_state_unchanged
    [Op.mthOp { name := "M".toList, qualname := "K.M".toList } ("d".toList) (some 2)]
    (Op.mthOp { name := "m".toList, qualname := "k.m".toList } ("e".toList) none)
    _ (RegError.duplicateCase (lowerStr ("k.m".toList)))
    (by decide) (by decide) (by decide)

/-- C7 (invariant I5): across any sequence of registration calls in the
one-separator domain, whether individual calls succeed or fail, the registry
only ever extends — no binding of `Registry.suites`, `Registry.cases`, or any
suite's `cases` map is removed or replaced, and no field of an existing
record changes except the one-time assignment of a case's `suite` back
reference (`none` to `some`) during attachment. -/
theorem c7_append_only (ops rest : List Op) (h : ∀ o ∈ ops ++ rest, OneSepOp o) :
    Extends (runOps emptyFactory ops) (runOps emptyFactory (ops ++ rest)) := by
  rw [runOps_append]
  have hops : ∀ o ∈ ops, OneSepOp o := fun o ho => h o (List.mem_append.mpr (Or.inl ho))
  have hrest : ∀ o ∈ rest, OneSepOp o := fun o ho => h o (List.mem_append.mpr (Or.inr ho))
  have hwf := (runOps_WF_extends ops emptyFactory WF_empty hops).1
  exact (runOps_WF_extends rest _ hwf hrest).2

theorem c7_append_only_witness :
    Extends
      (runOps emptyFactory
        [Op.mthOp { name := "M".toList, qualname := "K.M".toList } ("d".toList) (some 2)])
      (runOps emptyFactory
        ([Op.mthOp { name := "M".toList, qualname := "K.M".toList } ("d".toList) (some 2)] ++
          [Op.clsOp { name := "K".toList } none none ("d2".toList) [] none,
            Op.mthOp { name := "m".toList, qualname := "k.m".toList } ("e".toList) none])) :=
  c7_append_only
    [Op.mthOp { name := "M".toList, qualname := "K.M".toList } ("d".toList) (some 2)]
    [Op.clsOp { name := "K".toList } none none ("d2".toList) [] none,
      Op.mthOp { name := "m".toList, qualname := "k.m".toList } ("e".toList) none]
    (by decide)

/-! ### The canonical characterization: order-independent registry contents -/

theorem lookupA_append_singleton_other {α : Type} (l : List (Str × α)) {k k' : Str}
    (h : k' ≠ k) (v : α) : lookupA (l ++ [(k, v)]) k' = lookupA l k' := by
  rw [lookupA_append]
  cases hl : lookupA l k' with
  | some w => rfl
  | none =>
    show lookupA [(k, v)] k' = none
    rw [lookupA_cons, if_neg (fun he : k = k' => h he.symm)]
    rfl

theorem option_eq_of_some_iff {α : Type} {o1 o2 : Option α}
    (h : ∀ v, o1 = some v ↔ o2 = some v) : o1 = o2 := by
  cases o1 with
  | some v => exact ((h v).mp rfl).symm
  | none =>
    cases o2 with
    | none => rfl
    | some w => exact absurd ((h w).mpr rfl) (by simp)

theorem hasSuiteOp_append_mth (done : List Op) (m : PyMethod) (d : Str) (p : Option Int)
    (k : Str) : hasSuiteOp (done ++ [Op.mthOp m d p]) k ↔ hasSuiteOp done k := by
  constructor
  · rintro ⟨op, hop, c, a, cat, dd, t, n, heq, hkey⟩
    rcases List.mem_append.mp hop with h | h
    · exact ⟨op, h, c, a, cat, dd, t, n, heq, hkey⟩
    · rw [List.mem_singleton] at h
      subst h
      cases heq
  · rintro ⟨op, hop, c, a, cat, dd, t, n, heq, hkey⟩
    exact ⟨op, List.mem_append.mpr (Or.inl hop), c, a, cat, dd, t, n, heq, hkey⟩

theorem hasSuiteOp_append_cls (done : List Op) (c : PyClass) (a cat : Option Str) (d : Str)
    (t : List Str) (n : Option Str) (k : Str) :
    hasSuiteOp (done ++ [Op.clsOp c a cat d t n]) k ↔
      (hasSuiteOp done k ∨ suiteKeyOf c n = k) := by
  constructor
  · rintro ⟨op, hop, c0, a0, cat0, d0, t0, n0, heq, hkey⟩
    rcases List.mem_append.mp hop with h | h
    · exact Or.inl ⟨op, h, c0, a0, cat0, d0, t0, n0, heq, hkey⟩
    · rw [List.mem_singleton] at h
      subst h
      injection heq with e1 e2 e3 e4 e5 e6
      right
      rw [e1, e6]
      exact hkey
  · rintro (⟨op, hop, c0, a0, cat0, d0, t0, n0, heq, hkey⟩ | hkey)
    · exact ⟨op, List.mem_append.mpr (Or.inl hop), c0, a0, cat0, d0, t0, n0, heq, hkey⟩
    · exact ⟨Op.clsOp c a cat d t n,
        List.mem_append.mpr (Or.inr (List.mem_singleton.mpr rfl)),
        c, a, cat, d, t, n, rfl, hkey⟩

theorem hasMethodQual_append_cls (done : List Op) (c : PyClass) (a cat : Option Str)
    (d : Str) (t : List Str) (n : Option Str) (q : Str) :
    hasMethodQual (done ++ [Op.clsOp c a cat d t n]) q ↔ hasMethodQual done q := by
  constructor
  · rintro ⟨op, hop, m, dd, p, heq, hq⟩
    rcases List.mem_append.mp hop with h | h
    · exact ⟨op, h, m, dd, p, heq, hq⟩
    · rw [List.mem_singleton] at h
      subst h
      cases heq
  · rintro ⟨op, hop, m, dd, p, heq, hq⟩
    exact ⟨op, List.mem_append.mpr (Or.inl hop), m, dd, p, heq, hq⟩

theorem hasMethodQual_append_mth (done : List Op) (m : PyMethod) (d : Str) (p : Option Int)
    (q : Str) : hasMethodQual (done ++ [Op.mthOp m d p]) q ↔
      (hasMethodQual done q ∨ lowerStr m.qualname = q) := by
  constructor
  · rintro ⟨op, hop, m0, d0, p0, heq, hq⟩
    rcases List.mem_append.mp hop with h | h
    · exact Or.inl ⟨op, h, m0, d0, p0, heq, hq⟩
    · rw [List.mem_singleton] at h
      subst h
      injection heq with e1 e2 e3
      right
      rw [e1]
      exact hq
  · rintro (⟨op, hop, m0, d0, p0, heq, hq⟩ | hq)
    · exact ⟨op, List.mem_append.mpr (Or.inl hop), m0, d0, p0, heq, hq⟩
    · exact ⟨Op.mthOp m d p, List.mem_append.mpr (Or.inr (List.mem_singleton.mpr rfl)),
        m, d, p, rfl, hq⟩

theorem hasSuiteOp_mem_iff {done done' : List Op} (h : ∀ o, o ∈ done ↔ o ∈ done')
    (k : Str) : hasSuiteOp done k ↔ hasSuiteOp done' k := by
  constructor <;> rintro ⟨op, hop, c, a, cat, d, t, n, heq, hkey⟩
  · exact ⟨op, (h op).mp hop, c, a, cat, d, t, n, heq, hkey⟩
  · exact ⟨op, (h op).mpr hop, c, a, cat, d, t, n, heq, hkey⟩

theorem hasMethodQual_mem_iff {done done' : List Op} (h : ∀ o, o ∈ done ↔ o ∈ done')
    (q : Str) : hasMethodQual done q ↔ hasMethodQual done' q := by
  constructor <;> rintro ⟨op, hop, m, d, p, heq, hq⟩
  · exact ⟨op, (h op).mp hop, m, d, p, heq, hq⟩
  · exact ⟨op, (h op).mpr hop, m, d, p, heq, hq⟩

theorem canon_empty : Canon [] emptyFactory := by
  refine ⟨List.nodup_nil, List.nodup_nil, ?_, ?_, ?_, ?_, ?_, ?_⟩
  · intro p hp
    cases hp
  · intro k
    constructor
    · intro h
      cases h
    · rintro ⟨op, hop, -⟩
      cases hop
  · intro k ts h
    cases h
  · intro q
    constructor
    · intro h
      cases h
    · rintro ⟨op, hop, -⟩
      cases hop
  · intro q tc h
    cases h
  · intro k ts h
    cases h

theorem canon_mem {done done' : List Op} {f : TestFactory} (hc : Canon done f)
    (h : ∀ o, o ∈ done ↔ o ∈ done') : Canon done' f := by
  refine ⟨hc.nodupCases, hc.nodupSuites, hc.fullNameEq, ?_, ?_, ?_, ?_, ?_⟩
  · intro k
    rw [← hasSuiteOp_mem_iff h]
    exact hc.suitesDom k
  · intro k ts hts c a cat d t n hop hkey
    exact hc.suitesVal k ts hts c a cat d t n ((h _).mpr hop) hkey
  · intro q
    rw [← hasMethodQual_mem_iff h]
    exact hc.casesDom q
  · intro q tc htc m d p hop hkey
    obtain ⟨e1, e2, e3, e4, e5, e6, e7, e8⟩ :=
      hc.casesVal q tc htc m d p ((h _).mpr hop) hkey
    refine ⟨e1, e2, e3, e4, e5, e6, ?_, ?_⟩
    · intro hs
      exact e7 ((hasSuiteOp_mem_iff h (firstSeg q)).mpr hs)
    · intro hs
      exact e8 (fun hx => hs ((hasSuiteOp_mem_iff h (firstSeg q)).mp hx))
  · intro k ts hts ck q
    rw [hc.suiteCases k ts hts ck q]
    constructor <;> rintro ⟨m, d, p, hop, hq, hfs, hn⟩
    · exact ⟨m, d, p, (h _).mp hop, hq, hfs, hn⟩
    · exact ⟨m, d, p, (h _).mpr hop, hq, hfs, hn⟩

theorem isSome_lookupA_updateA {α : Type} (l : List (Str × α)) (k k' : Str) (g : α → α) :
    (lookupA (updateA l k g) k').isSome = (lookupA l k').isSome := by
  rw [lookupA_updateA]
  by_cases h : k' = k
  · rw [if_pos h]
    cases lookupA l k' <;> rfl
  · rw [if_neg h]

theorem isSome_lookupA_append_singleton {α : Type} (l : List (Str × α)) (k k' : Str)
    (v : α) : (lookupA (l ++ [(k, v)]) k').isSome =
      ((lookupA l k').isSome || decide (k' = k)) := by
  by_cases h : k' = k
  · subst h
    cases hl : lookupA l k' with
    | some w => rw [lookupA_append_of_some hl]; simp
    | none =>
      rw [lookupA_append_of_none hl, lookupA_cons, if_pos rfl]
      simp [hl]
  · rw [lookupA_append_singleton_other l h]
    simp [h]

theorem addMethod_canon {done : List Op} {f f' : TestFactory} {m : PyMethod} {d : Str}
    {p : Option Int} (hc : Canon done f) (hone : OneSep m)
    (hx : addMethod f m d p = (f', none)) :
    Canon (done ++ [Op.mthOp m d p]) f' := by
  obtain ⟨c, hcfree, hnfree, hqshape, hfs⟩ := oneSep_shape hone
  cases hl : lookupA f.cases (lowerStr m.qualname) with
  | some tc0 =>
    rw [addMethod_eq_of_dup hl] at hx
    exact absurd (congrArg Prod.snd hx) (by simp)
  | none =>
    have hnotSuiteDone : ∀ {k : Str}, lookupA f.suites k = none → ¬ hasSuiteOp done k := by
      intro k hk hsop
      have := (hc.suitesDom k).mpr hsop
      rw [hk] at this
      cases this
    cases hs : lookupA f.suites (firstSeg (lowerStr m.qualname)) with
    | none =>
      rw [addMethod_eq_of_fresh_noSuite hl hs] at hx
      obtain ⟨hf', -⟩ := Prod.mk.injEq .. ▸ hx
      subst hf'
      refine ⟨?_, hc.nodupSuites, ?_, ?_, ?_, ?_, ?_, ?_⟩
      · show ((f.cases ++ _).map Prod.fst).Nodup
        rw [List.map_append]
        exact nodup_append_singleton ((lookupA_eq_none_iff _ _).mp hl) hc.nodupCases
      · intro pr hpr
        rcases List.mem_append.mp hpr with hold | hnew
        · exact hc.fullNameEq pr hold
        · rw [List.mem_singleton] at hnew
          subst hnew
          rfl
      · intro k
        rw [hasSuiteOp_append_mth]
        exact hc.suitesDom k
      · intro k ts hts c0 a0 cat0 d0 t0 n0 hop hkey
        rcases List.mem_append.mp hop with hold | hnew
        · exact hc.suitesVal k ts hts c0 a0 cat0 d0 t0 n0 hold hkey
        · rw [List.mem_singleton] at hnew
          cases hnew
      · intro q'
        show (lookupA (f.cases ++ _) q').isSome ↔ _
        rw [isSome_lookupA_append_singleton, hasMethodQual_append_mth]
        rw [Bool.or_eq_true, decide_eq_true_eq]
        constructor
        · rintro (h | h)
          · exact Or.inl ((hc.casesDom q').mp h)
          · exact Or.inr h.symm
        · rintro (h | h)
          · exact Or.inl ((hc.casesDom q').mpr h)
          · exact Or.inr h.symm
      · intro q' tc' htc' m0 d0 p0 hop hq0
        by_cases hqq : q' = lowerStr m.qualname
        · subst hqq
          have htc0 : tc' = mkTestCaseData m d p [] := by
            rw [lookupA_append_of_none hl, lookupA_cons, if_pos rfl] at htc'
            exact ((Option.some.injEq _ _).mp htc').symm
          subst htc0
          rcases List.mem_append.mp hop with hold | hnew
          · exfalso
            have hh : hasMethodQual done (lowerStr m.qualname) :=
              ⟨Op.mthOp m0 d0 p0, hold, m0, d0, p0, rfl, hq0⟩
            have hh2 := (hc.casesDom (lowerStr m.qualname)).mpr hh
            rw [hl] at hh2
            cases hh2
          · rw [List.mem_singleton] at hnew
            injection hnew with e1 e2 e3
            subst e1
            subst e2
            subst e3
            refine ⟨rfl, rfl, rfl, rfl, rfl, rfl, ?_, fun _ => rfl⟩
            intro hsop
            exfalso
            rw [hasSuiteOp_append_mth] at hsop
            exact hnotSuiteDone hs hsop
        · rw [lookupA_append_singleton_other _ hqq] at htc'
          have hop' : Op.mthOp m0 d0 p0 ∈ done := by
            rcases List.mem_append.mp hop with hold | hnew
            · exact hold
            · rw [List.mem_singleton] at hnew
              injection hnew with e1 e2 e3
              subst e1
              exact absurd hq0.symm hqq
          obtain ⟨e1, e2, e3, e4, e5, e6, e7, e8⟩ :=
            hc.casesVal q' tc' htc' m0 d0 p0 hop' hq0
          refine ⟨e1, e2, e3, e4, e5, e6, ?_, ?_⟩
          · rw [hasSuiteOp_append_mth]
            exact e7
          · rw [hasSuiteOp_append_mth]
            exact e8
      · intro k ts hts ck' q''
        rw [hc.suiteCases k ts hts ck' q'']
        constructor
        · rintro ⟨m0, d0, p0, hop, hq'', hfs'', hck''⟩
          exact ⟨m0, d0, p0, List.mem_append.mpr (Or.inl hop), hq'', hfs'', hck''⟩
        · rintro ⟨m0, d0, p0, hop, hq'', hfs'', hck''⟩
          rcases List.mem_append.mp hop with hold | hnew
          · exact ⟨m0, d0, p0, hold, hq'', hfs'', hck''⟩
          · exfalso
            rw [List.mem_singleton] at hnew
            injection hnew with e1 e2 e3
            subst e1
            rw [← hq''] at hfs''
            rw [hfs''] at hs
            rw [hs] at hts
            cases hts
    | some ts =>
      rw [addMethod_eq_of_fresh_suite hl hs] at hx
      have hs1 : lookupA ({ f with cases :=
          f.cases ++ [(lowerStr m.qualname, mkTestCaseData m d p [])] }
            : TestFactory).suites (firstSeg (lowerStr m.qualname)) = some ts := hs
      cases hl2 : lookupA ts.cases (lowerStr m.name) with
      | some q2 =>
        rw [addCaseToSuite_eq_dup hs1 hl2] at hx
        exact absurd (congrArg Prod.snd hx) (by simp)
      | none =>
        rw [addCaseToSuite_eq_ok hs1 hl2 (lowerStr m.qualname)] at hx
        obtain ⟨hf', -⟩ := Prod.mk.injEq .. ▸ hx
        subst hf'
        dsimp only
        have hdoneSuite : hasSuiteOp done (firstSeg (lowerStr m.qualname)) := by
          apply (hc.suitesDom _).mp
          rw [hs]
          rfl
        refine ⟨?_, ?_, ?_, ?_, ?_, ?_, ?_, ?_⟩
        · dsimp only
          rw [keys_updateA, List.map_append]
          exact nodup_append_singleton ((lookupA_eq_none_iff _ _).mp hl) hc.nodupCases
        · dsimp only
          rw [keys_updateA]
          exact hc.nodupSuites
        · intro pr hpr
          obtain ⟨p0, hp0, hp0e⟩ := List.mem_map.mp hpr
          have hfn0 : p0.2.full_name = p0.1 := by
            rcases List.mem_append.mp hp0 with hold | hnew
            · exact hc.fullNameEq p0 hold
            · rw [List.mem_singleton] at hnew
              rw [hnew]
              rfl
          by_cases hk : p0.1 = lowerStr m.qualname
          · rw [if_pos hk] at hp0e
            rw [← hp0e]
            exact hfn0
          · rw [if_neg hk] at hp0e
            rw [← hp0e]
            exact hfn0
        · intro k
          dsimp only
          rw [isSome_lookupA_updateA, hasSuiteOp_append_mth]
          exact hc.suitesDom k
        · intro k ts' hts' c0 a0 cat0 d0 t0 n0 hop hkey
          have hop' : Op.clsOp c0 a0 cat0 d0 t0 n0 ∈ done := by
            rcases List.mem_append.mp hop with hold | hnew
            · exact hold
            · rw [List.mem_singleton] at hnew
              cases hnew
          dsimp only at hts'
          rw [lookupA_updateA] at hts'
          by_cases hk : k = firstSeg (lowerStr m.qualname)
          · rw [if_pos hk] at hts'
            rw [hk, hs] at hts'
            have hts'' : ts' =
                { ts with cases := ts.cases ++ [(lowerStr m.name, lowerStr m.qualname)] } :=
              ((Option.some.injEq _ _).mp hts').symm
            subst hts''
            have hold := hc.suitesVal k ts (by rw [hk]; exact hs) c0 a0 cat0 d0 t0 n0
              hop' hkey
            exact hold
          · rw [if_neg hk] at hts'
            exact hc.suitesVal k ts' hts' c0 a0 cat0 d0 t0 n0 hop' hkey
        · intro q'
          dsimp only
          rw [isSome_lookupA_updateA, isSome_lookupA_append_singleton,
            hasMethodQual_append_mth, Bool.or_eq_true, decide_eq_true_eq]
          constructor
          · rintro (h | h)
            · exact Or.inl ((hc.casesDom q').mp h)
            · exact Or.inr h.symm
          · rintro (h | h)
            · exact Or.inl ((hc.casesDom q').mpr h)
            · exact Or.inr h.symm
        · intro q' tc' htc' m0 d0 p0 hop hq0
          dsimp only at htc'
          rw [lookupA_updateA] at htc'
          by_cases hqq : q' = lowerStr m.qualname
          · subst hqq
            rw [if_pos rfl, lookupA_append_of_none hl, lookupA_cons, if_pos rfl] at htc'
            have htc0 : tc' = setSuiteRef (firstSeg (lowerStr m.qualname))
                (mkTestCaseData m d p []) := ((Option.some.injEq _ _).mp htc').symm
            subst htc0
            rcases List.mem_append.mp hop with hold | hnew
            · exfalso
              have hh : hasMethodQual done (lowerStr m.qualname) :=
                ⟨Op.mthOp m0 d0 p0, hold, m0, d0, p0, rfl, hq0⟩
              have hh2 := (hc.casesDom (lowerStr m.qualname)).mpr hh
              rw [hl] at hh2
              cases hh2
            · rw [List.mem_singleton] at hnew
              injection hnew with e1 e2 e3
              subst e1
              subst e2
              subst e3
              refine ⟨rfl, rfl, rfl, rfl, rfl, rfl, fun _ => rfl, ?_⟩
              intro hneg
              exfalso
              apply hneg
              rw [hasSuiteOp_append_mth]
              exact hdoneSuite
          · rw [if_neg hqq, lookupA_append_singleton_other _ hqq] at htc'
            have hop' : Op.mthOp m0 d0 p0 ∈ done := by
              rcases List.mem_append.mp hop with hold | hnew
              · exact hold
              · rw [List.mem_singleton] at hnew
                injection hnew with e1 e2 e3
                subst e1
                exact absurd hq0.symm hqq
            obtain ⟨e1, e2, e3, e4, e5, e6, e7, e8⟩ :=
              hc.casesVal q' tc' htc' m0 d0 p0 hop' hq0
            refine ⟨e1, e2, e3, e4, e5, e6, ?_, ?_⟩
            · rw [hasSuiteOp_append_mth]
              exact e7
            · rw [hasSuiteOp_append_mth]
              exact e8
        · intro k ts' hts' ck' q''
          dsimp only at hts'
          rw [lookupA_updateA] at hts'
          by_cases hkc : k = firstSeg (lowerStr m.qualname)
          · rw [if_pos hkc] at hts'
            rw [hkc, hs] at hts'
            have hts'' : ts' =
                { ts with cases := ts.cases ++ [(lowerStr m.name, lowerStr m.qualname)] } :=
              ((Option.some.injEq _ _).mp hts').symm
            subst hts''
            constructor
            · intro hlk
              have hlk' : lookupA (ts.cases ++ [(lowerStr m.name, lowerStr m.qualname)])
                  ck' = some q'' := hlk
              rw [lookupA_append] at hlk'
              cases hold : lookupA ts.cases ck' with
              | some w =>
                rw [hold] at hlk'
                have hw : w = q'' := (Option.some.injEq _ _).mp hlk'
                subst hw
                obtain ⟨m1, d1, p1, hop1, hq1, hfs1, hck1⟩ :=
                  (hc.suiteCases k ts (by rw [hkc]; exact hs) ck' w).mp hold
                exact ⟨m1, d1, p1, List.mem_append.mpr (Or.inl hop1), hq1, hfs1, hck1⟩
              | none =>
                rw [hold, lookupA_cons] at hlk'
                by_cases hck : lowerStr m.name = ck'
                · rw [if_pos hck] at hlk'
                  have hq'' : lowerStr m.qualname = q'' :=
                    (Option.some.injEq _ _).mp hlk'
                  refine ⟨m, d, p,
                    List.mem_append.mpr (Or.inr (List.mem_singleton.mpr rfl)),
                    hq'', ?_, hck⟩
                  rw [← hq'', hkc]
                · rw [if_neg hck] at hlk'
                  cases hlk'
            · rintro ⟨m1, d1, p1, hop1, hq1, hfs1, hck1⟩
              show lookupA (ts.cases ++ [(lowerStr m.name, lowerStr m.qualname)])
                ck' = some q''
              rcases List.mem_append.mp hop1 with hold1 | hnew1
              · have := (hc.suiteCases k ts (by rw [hkc]; exact hs) ck' q'').mpr
                  ⟨m1, d1, p1, hold1, hq1, hfs1, hck1⟩
                exact lookupA_append_of_some this _
              · rw [List.mem_singleton] at hnew1
                injection hnew1 with e1 e2 e3
                subst e1
                rw [← hck1, ← hq1]
                rw [lookupA_append_of_none hl2, lookupA_cons, if_pos rfl]
          · rw [if_neg hkc] at hts'
            rw [hc.suiteCases k ts' hts' ck' q'']
            constructor
            · rintro ⟨m1, d1, p1, hop1, hq1, hfs1, hck1⟩
              exact ⟨m1, d1, p1, List.mem_append.mpr (Or.inl hop1), hq1, hfs1, hck1⟩
            · rintro ⟨m1, d1, p1, hop1, hq1, hfs1, hck1⟩
              rcases List.mem_append.mp hop1 with hold1 | hnew1
              · exact ⟨m1, d1, p1, hold1, hq1, hfs1, hck1⟩
              · exfalso
                rw [List.mem_singleton] at hnew1
                injection hnew1 with e1 e2 e3
                subst e1
                apply hkc
                rw [← hfs1, ← hq1]

theorem addClass_canon {done : List Op} {f f' : TestFactory} {cls : PyClass}
    {a cat : Option Str} {d : Str} {t : List Str} {nm : Option Str}
    (hc : Canon done f) (hdone : ∀ o ∈ done, OneSepOp o)
    (hx : addClass f cls a cat d t nm = (f', none)) :
    Canon (done ++ [Op.clsOp cls a cat d t nm]) f' := by
  cases hl : lookupA f.suites (suiteKeyOf cls nm) with
  | some ts =>
    rw [addClass_eq_of_dup hl] at hx
    exact absurd (congrArg Prod.snd hx) (by simp)
  | none =>
    rw [addClass_eq_of_fresh hl] at hx
    have hkeyfresh : suiteKeyOf cls nm ∉ f.suites.map Prod.fst :=
      (lookupA_eq_none_iff _ _).mp hl
    have hshape : ∀ p ∈ f.cases, p.2.full_name = p.1 ∧
        ∃ c, dotFree c ∧ dotFree p.2.key ∧ p.1 = c ++ '.' :: p.2.key := by
      intro p hp
      refine ⟨hc.fullNameEq p hp, ?_⟩
      have hlook : lookupA f.cases p.1 = some p.2 :=
        lookupA_of_mem_nodup hc.nodupCases hp
      have hq : hasMethodQual done p.1 := by
        apply (hc.casesDom p.1).mp
        rw [hlook]
        rfl
      obtain ⟨op, hop, m1, d1, p1, heq, hq1⟩ := hq
      subst heq
      have hone1 : OneSep m1 := hdone _ hop
      obtain ⟨c, hcfree, hnfree, hqshape, hfs1⟩ := oneSep_shape hone1
      obtain ⟨-, -, e3, -, -, -, -, -⟩ := hc.casesVal p.1 p.2 hlook m1 d1 p1 hop hq1
      refine ⟨c, hcfree, ?_, ?_⟩
      · rw [e3]
        exact hnfree
      · rw [← hq1, hqshape, e3]
    have hmemQs : ∀ p ∈ f.cases,
        (p.1 ∈ matchedQs (suiteKeyOf cls nm ++ ['.']) f.cases ↔
          firstSeg p.1 = suiteKeyOf cls nm) := by
      intro p hp
      obtain ⟨hfeq, cp, hcp, hkp, hsp⟩ := hshape p hp
      constructor
      · intro hmem
        obtain ⟨p2, hp2f, hp2e⟩ := List.mem_map.mp hmem
        obtain ⟨hp2l, hp2m⟩ := List.mem_filter.mp hp2f
        have hpp : p2 = p := nodup_keys_inj hc.nodupCases hp2l hp hp2e
        subst hpp
        have hck : suiteKeyOf cls nm = cp := by
          rw [hfeq, hsp] at hp2m
          exact (isPrefixOf_shape_iff hcp hkp _).mp hp2m
        rw [hsp, firstSeg_shape hcp, hck]
      · intro hfs
        have hck : cp = suiteKeyOf cls nm := by
          rw [hsp, firstSeg_shape hcp] at hfs
          exact hfs
        have hpre : (suiteKeyOf cls nm ++ ['.']).isPrefixOf p.2.full_name = true := by
          rw [hfeq, hsp]
          exact (isPrefixOf_shape_iff hcp hkp _).mpr hck.symm
        exact List.mem_map_of_mem Prod.fst (List.mem_filter.mpr ⟨hp, hpre⟩)
    have hnk1 : ((({ f with suites := f.suites ++
        [(suiteKeyOf cls nm, mkTestSuiteData cls a cat d t [])] } : TestFactory)).suites.map
          Prod.fst).Nodup := by
      show ((f.suites ++ _).map Prod.fst).Nodup
      rw [List.map_append]
      exact nodup_append_singleton hkeyfresh hc.nodupSuites
    have hts1 : lookupA (({ f with suites := f.suites ++
        [(suiteKeyOf cls nm, mkTestSuiteData cls a cat d t [])] } : TestFactory)).suites
          (suiteKeyOf cls nm) = some (mkTestSuiteData cls a cat d t []) := by
      show lookupA (f.suites ++ _) _ = _
      rw [lookupA_append_of_none hl, lookupA_cons, if_pos rfl]
    have hok1 : ∀ p ∈ f.cases,
        (suiteKeyOf cls nm ++ ['.']).isPrefixOf p.2.full_name = true →
        lookupA (mkTestSuiteData cls a cat d t []).cases p.2.key = none := by
      intro p _ _
      rfl
    have hdk1 := matched_keys_nodup hc.nodupCases hshape (suiteKeyOf cls nm)
    rw [scanAttach_ok_result (suiteKeyOf cls nm) (suiteKeyOf cls nm ++ ['.'])
      f.cases _ (mkTestSuiteData cls a cat d t []) hnk1 hts1 hok1 hdk1] at hx
    obtain ⟨hf', -⟩ := Prod.mk.injEq .. ▸ hx
    subst hf'
    dsimp only
    rw [updateA_append_fresh hkeyfresh]
    refine ⟨?_, ?_, ?_, ?_, ?_, ?_, ?_, ?_⟩
    · dsimp only
      rw [keys_setSuiteMany]
      exact hc.nodupCases
    · dsimp only
      rw [List.map_append]
      exact nodup_append_singleton hkeyfresh hc.nodupSuites
    · intro pr hpr
      obtain ⟨p0, hp0, hp0e⟩ := List.mem_map.mp hpr
      by_cases hk : p0.1 ∈ matchedQs (suiteKeyOf cls nm ++ ['.']) f.cases
      · rw [if_pos hk] at hp0e
        rw [← hp0e]
        exact hc.fullNameEq p0 hp0
      · rw [if_neg hk] at hp0e
        rw [← hp0e]
        exact hc.fullNameEq p0 hp0
    · intro k
      dsimp only
      rw [isSome_lookupA_append_singleton, hasSuiteOp_append_cls, Bool.or_eq_true,
        decide_eq_true_eq]
      constructor
      · rintro (h | h)
        · exact Or.inl ((hc.suitesDom k).mp h)
        · exact Or.inr h.symm
      · rintro (h | h)
        · exact Or.inl ((hc.suitesDom k).mpr h)
        · exact Or.inr h.symm
    · intro k ts' hts' c0 a0 cat0 d0 t0 n0 hop hkey
      dsimp only at hts'
      by_cases hk : k = suiteKeyOf cls nm
      · subst hk
        rw [lookupA_append_of_none hl, lookupA_cons, if_pos rfl] at hts'
        injection hts' with he
        subst he
        rcases List.mem_append.mp hop with hold | hnew
        · exfalso
          have hh : hasSuiteOp done (suiteKeyOf cls nm) :=
            ⟨Op.clsOp c0 a0 cat0 d0 t0 n0, hold, c0, a0, cat0, d0, t0, n0, rfl, hkey⟩
          have hh2 := (hc.suitesDom (suiteKeyOf cls nm)).mpr hh
          rw [hl] at hh2
          cases hh2
        · rw [List.mem_singleton] at hnew
          injection hnew with e1 e2 e3 e4 e5 e6
          subst e1
          subst e2
          subst e3
          subst e4
          subst e5
          subst e6
          exact ⟨rfl, rfl, rfl, rfl, rfl, rfl, rfl⟩
      · rw [lookupA_append_singleton_other _ hk] at hts'
        have hop' : Op.clsOp c0 a0 cat0 d0 t0 n0 ∈ done := by
          rcases List.mem_append.mp hop with hold | hnew
          · exact hold
          · rw [List.mem_singleton] at hnew
            injection hnew with e1 e2 e3 e4 e5 e6
            subst e1
            subst e6
            exact absurd hkey.symm hk
        exact hc.suitesVal k ts' hts' c0 a0 cat0 d0 t0 n0 hop' hkey
    · intro q'
      dsimp only
      rw [lookupA_setSuiteMany, hasMethodQual_append_cls]
      have hm : ∀ (o : Option TestCaseData) (g : TestCaseData → TestCaseData),
          (o.map g).isSome = o.isSome := by
        intro o g
        cases o <;> rfl
      rw [hm]
      exact hc.casesDom q'
    · intro q' tc' htc' m0 d0 p0 hop hq0
      dsimp only at htc'
      rw [lookupA_setSuiteMany] at htc'
      have hop' : Op.mthOp m0 d0 p0 ∈ done := by
        rcases List.mem_append.mp hop with hold | hnew
        · exact hold
        · rw [List.mem_singleton] at hnew
          cases hnew
      cases hold : lookupA f.cases q' with
      | none =>
        rw [hold] at htc'
        cases htc'
      | some tc0 =>
        rw [hold] at htc'
        have htce : (if q' ∈ matchedQs (suiteKeyOf cls nm ++ ['.']) f.cases
            then setSuiteRef (suiteKeyOf cls nm) tc0 else tc0) = tc' := by
          injection htc'
        obtain ⟨e1, e2, e3, e4, e5, e6, e7, e8⟩ :=
          hc.casesVal q' tc0 hold m0 d0 p0 hop' hq0
        by_cases hq'm : q' ∈ matchedQs (suiteKeyOf cls nm ++ ['.']) f.cases
        · rw [if_pos hq'm] at htce
          subst htce
          have hfsq : firstSeg q' = suiteKeyOf cls nm :=
            (hmemQs (q', tc0) (lookupA_mem hold)).mp hq'm
          refine ⟨e1, e2, e3, e4, e5, e6, ?_, ?_⟩
          · intro hsop
            show some (suiteKeyOf cls nm) = some (firstSeg q')
            rw [hfsq]
          · intro hneg
            exfalso
            apply hneg
            rw [hasSuiteOp_append_cls]
            exact Or.inr hfsq.symm
        · rw [if_neg hq'm] at htce
          subst htce
          have hfsne : ¬ firstSeg q' = suiteKeyOf cls nm := fun h =>
            hq'm ((hmemQs (q', tc0) (lookupA_mem hold)).mpr h)
          refine ⟨e1, e2, e3, e4, e5, e6, ?_, ?_⟩
          · intro hsop
            rw [hasSuiteOp_append_cls] at hsop
            rcases hsop with h | h
            · exact e7 h
            · exact absurd h.symm hfsne
          · intro hneg
            apply e8
            intro hy
            apply hneg
            rw [hasSuiteOp_append_cls]
            exact Or.inl hy
    · intro k ts' hts' ck' q''
      dsimp only at hts'
      by_cases hk : k = suiteKeyOf cls nm
      · subst hk
        rw [lookupA_append_of_none hl, lookupA_cons, if_pos rfl] at hts'
        injection hts' with he
        subst he
        constructor
        · intro hlk
          have hlk' : lookupA (matchedOf (suiteKeyOf cls nm ++ ['.']) f.cases) ck' =
              some q'' := hlk
          have hmem := lookupA_mem hlk'
          obtain ⟨p2, hp2f, hp2e⟩ := List.mem_map.mp hmem
          have hp2l : p2 ∈ f.cases := List.mem_of_mem_filter hp2f
          injection hp2e with he1 he2
          have hlook2 : lookupA f.cases p2.1 = some p2.2 :=
            lookupA_of_mem_nodup hc.nodupCases hp2l
          have hqd : hasMethodQual done p2.1 := by
            apply (hc.casesDom p2.1).mp
            rw [hlook2]
            rfl
          obtain ⟨op, hop1, m1, d1, p1, heq1, hq1⟩ := hqd
          subst heq1
          obtain ⟨f1, f2, f3, f4, f5, f6, f7, f8⟩ :=
            hc.casesVal p2.1 p2.2 hlook2 m1 d1 p1 hop1 hq1
          have hq2mem : p2.1 ∈ matchedQs (suiteKeyOf cls nm ++ ['.']) f.cases :=
            List.mem_map_of_mem Prod.fst hp2f
          have hfs2 : firstSeg p2.1 = suiteKeyOf cls nm := (hmemQs p2 hp2l).mp hq2mem
          refine ⟨m1, d1, p1, List.mem_append.mpr (Or.inl hop1), ?_, ?_, ?_⟩
          · rw [hq1, he2]
          · rw [← he2]
            exact hfs2
          · rw [← f3]
            exact he1
        · rintro ⟨m1, d1, p1, hop1, hq1, hfs1, hck1⟩
          have hop1' : Op.mthOp m1 d1 p1 ∈ done := by
            rcases List.mem_append.mp hop1 with hold1 | hnew1
            · exact hold1
            · rw [List.mem_singleton] at hnew1
              cases hnew1
          have hqd : hasMethodQual done q'' :=
            ⟨Op.mthOp m1 d1 p1, hop1', m1, d1, p1, rfl, hq1⟩
          have hsome := (hc.casesDom q'').mpr hqd
          cases hold : lookupA f.cases q'' with
          | none =>
            rw [hold] at hsome
            cases hsome
          | some tc0 =>
            obtain ⟨f1, f2, f3, f4, f5, f6, f7, f8⟩ :=
              hc.casesVal q'' tc0 hold m1 d1 p1 hop1' hq1
            have hmemc : (q'', tc0) ∈ f.cases := lookupA_mem hold
            have hq2mem : q'' ∈ matchedQs (suiteKeyOf cls nm ++ ['.']) f.cases :=
              (hmemQs (q'', tc0) hmemc).mpr hfs1
            have hnodupM : ((matchedOf (suiteKeyOf cls nm ++ ['.']) f.cases).map
                Prod.fst).Nodup := by
              rw [matchedOf, List.map_map]
              exact hdk1
            obtain ⟨p2, hp2f, hp2e⟩ := List.mem_map.mp hq2mem
            have hp2l : p2 ∈ f.cases := List.mem_of_mem_filter hp2f
            have hpp : p2 = (q'', tc0) := nodup_keys_inj hc.nodupCases hp2l hmemc hp2e
            rw [hpp] at hp2f
            have hmm : (tc0.key, q'') ∈ matchedOf (suiteKeyOf cls nm ++ ['.']) f.cases :=
              List.mem_map_of_mem (fun p => (p.2.key, p.1)) hp2f
            have hckq : tc0.key = ck' := by
              rw [f3]
              exact hck1
            rw [hckq] at hmm
            show lookupA (matchedOf (suiteKeyOf cls nm ++ ['.']) f.cases) ck' = some q''
            exact lookupA_of_mem_nodup hnodupM hmm
      · rw [lookupA_append_singleton_other _ hk] at hts'
        rw [hc.suiteCases k ts' hts' ck' q'']
        constructor
        · rintro ⟨m1, d1, p1, hop1, hq1, hfs1, hck1⟩
          exact ⟨m1, d1, p1, List.mem_append.mpr (Or.inl hop1), hq1, hfs1, hck1⟩
        · rintro ⟨m1, d1, p1, hop1, hq1, hfs1, hck1⟩
          rcases List.mem_append.mp hop1 with hold1 | hnew1
          · exact ⟨m1, d1, p1, hold1, hq1, hfs1, hck1⟩
          · rw [List.mem_singleton] at hnew1
            cases hnew1

theorem caseData_ext {a b : TestCaseData} (h1 : a.name = b.name)
    (h2 : a.full_name = b.full_name) (h3 : a.method = b.method)
    (h4 : a.description = b.description) (h5 : a.priority = b.priority)
    (h6 : a.suite = b.suite) (h7 : a.key = b.key) : a = b := by
  cases a
  cases b
  dsimp only at h1 h2 h3 h4 h5 h6 h7
  subst h1
  subst h2
  subst h3
  subst h4
  subst h5
  subst h6
  subst h7
  rfl

theorem runAll_nil (f : TestFactory) : runAll f [] = some f := rfl

theorem runAll_cons_ok {f f1 : TestFactory} {op : Op} (h : execOp f op = (f1, none))
    (rest : List Op) : runAll f (op :: rest) = runAll f1 rest := by
  show (match execOp f op with
    | (g, none) => runAll g rest
    | (_, some _) => none) = runAll f1 rest
  rw [h]

theorem runAll_cons_err {f f1 : TestFactory} {op : Op} {e : RegError}
    (h : execOp f op = (f1, some e)) (rest : List Op) : runAll f (op :: rest) = none := by
  show (match execOp f op with
    | (g, none) => runAll g rest
    | (_, some _) => none) = none
  rw [h]

theorem canon_step {done : List Op} {f f' : TestFactory} {op : Op}
    (hc : Canon done f) (hdone : ∀ o ∈ done, OneSepOp o) (hop : OneSepOp op)
    (hx : execOp f op = (f', none)) : Canon (done ++ [op]) f' := by
  cases op with
  | clsOp c a cat d t n => exact addClass_canon hc hdone hx
  | mthOp m d p => exact addMethod_canon hc hop hx

theorem canon_runAll : ∀ (l done : List Op) (f g : TestFactory),
    Canon done f → (∀ o ∈ done, OneSepOp o) → (∀ o ∈ l, OneSepOp o) →
    runAll f l = some g → Canon (done ++ l) g := by
  intro l
  induction l with
  | nil =>
    intro done f g hc _ _ hx
    rw [runAll_nil] at hx
    injection hx with he
    subst he
    rw [List.append_nil]
    exact hc
  | cons op rest ih =>
    intro done f g hc hdone hl hx
    cases he : execOp f op with
    | mk f1 err =>
      cases err with
      | none =>
        rw [runAll_cons_ok he] at hx
        have hc1 : Canon (done ++ [op]) f1 :=
          canon_step hc hdone (hl op (List.mem_cons_self _ _)) he
        have hdone1 : ∀ o ∈ done ++ [op], OneSepOp o := by
          intro o ho
          rcases List.mem_append.mp ho with h | h
          · exact hdone o h
          · rw [List.mem_singleton] at h
            rw [h]
            exact hl op (List.mem_cons_self _ _)
        have hres := ih (done ++ [op]) f1 g hc1 hdone1
          (fun o ho => hl o (List.mem_cons_of_mem _ ho)) hx
        rw [List.append_assoc] at hres
        exact hres
      | some e =>
        rw [runAll_cons_err he] at hx
        cases hx

theorem canon_unique {done : List Op} {f1 f2 : TestFactory} (h1 : Canon done f1)
    (h2 : Canon done f2) : FactoryEquiv f1 f2 := by
  have hbb : ∀ (x y : Bool), (x = true ↔ y = true) → x = y := by decide
  constructor
  · intro k
    constructor
    · exact hbb _ _ ((h1.suitesDom k).trans (h2.suitesDom k).symm)
    · intro sa sb hsa hsb
      have hs : hasSuiteOp done k := (h1.suitesDom k).mp (by rw [hsa]; rfl)
      obtain ⟨op, hop, c, a2, cat2, d2, t2, n2, heq, hkey⟩ := hs
      subst heq
      obtain ⟨g1, g2, g3, g4, g5, g6, g7⟩ :=
        h1.suitesVal k sa hsa c a2 cat2 d2 t2 n2 hop hkey
      obtain ⟨j1, j2, j3, j4, j5, j6, j7⟩ :=
        h2.suitesVal k sb hsb c a2 cat2 d2 t2 n2 hop hkey
      refine ⟨?_, ?_, ?_, ?_, ?_, ?_, ?_, ?_⟩
      · rw [g1, j1]
      · rw [g2, j2]
      · rw [g3, j3]
      · rw [g4, j4]
      · rw [g5, j5]
      · rw [g6, j6]
      · rw [g7, j7]
      · intro ck
        apply option_eq_of_some_iff
        intro q
        rw [h1.suiteCases k sa hsa ck q, h2.suiteCases k sb hsb ck q]
  · intro q
    apply option_eq_of_some_iff
    intro tc
    have hdir : ∀ (fa fb : TestFactory), Canon done fa → Canon done fb →
        lookupA fa.cases q = some tc → lookupA fb.cases q = some tc := by
      intro fa fb ha hb hsa
      have hq : hasMethodQual done q := (ha.casesDom q).mp (by rw [hsa]; rfl)
      obtain ⟨op, hop, m, dd, pp, heq, hqe⟩ := hq
      subst heq
      have hsb : (lookupA fb.cases q).isSome = true := (hb.casesDom q).mpr
        ⟨Op.mthOp m dd pp, hop, m, dd, pp, rfl, hqe⟩
      cases hlb : lookupA fb.cases q with
      | none =>
        rw [hlb] at hsb
        cases hsb
      | some tc2 =>
        obtain ⟨x1, x2, x3, x4, x5, x6, x7, x8⟩ := ha.casesVal q tc hsa m dd pp hop hqe
        obtain ⟨y1, y2, y3, y4, y5, y6, y7, y8⟩ := hb.casesVal q tc2 hlb m dd pp hop hqe
        have htc : tc = tc2 := by
          refine caseData_ext ?_ ?_ ?_ ?_ ?_ ?_ ?_
          · rw [x2, y2]
          · rw [x4, y4]
          · rw [x1, y1]
          · rw [x5, y5]
          · rw [x6, y6]
          · by_cases hs : hasSuiteOp done (firstSeg q)
            · rw [x7 hs, y7 hs]
            · rw [x8 hs, y8 hs]
          · rw [x3, y3]
        rw [htc]
    exact ⟨fun h => hdir f1 f2 h1 h2 h, fun h => hdir f2 f1 h2 h1 h⟩

/-- C1: registration is confluent.  On the spec's explicit one-separator
domain (section 9), any two permutations of one multiset of successful
registration calls, run from the fresh registry, end in extensionally equal
states: the suites maps agree binding-for-binding (suite records compared
field-wise with their `cases` dicts as mappings) and the case maps agree. -/
theorem c1_confluence (l1 l2 : List Op) (f1 f2 : TestFactory)
    (hone : ∀ o ∈ l1, OneSepOp o) (hperm : l1.Perm l2)
    (h1 : runAll emptyFactory l1 = some f1) (h2 : runAll emptyFactory l2 = some f2) :
    FactoryEquiv f1 f2 := by
  have hone2 : ∀ o ∈ l2, OneSepOp o := fun o ho => hone o (hperm.mem_iff.mpr ho)
  have hc1 : Canon ([] ++ l1) f1 :=
    canon_runAll l1 [] emptyFactory f1 canon_empty
      (fun o ho => absurd ho (List.not_mem_nil o)) hone h1
  have hc2 : Canon ([] ++ l2) f2 :=
    canon_runAll l2 [] emptyFactory f2 canon_empty
      (fun o ho => absurd ho (List.not_mem_nil o)) hone2 h2
  have hc1l : Canon l1 f1 := hc1
  have hc2l : Canon l2 f2 := hc2
  have hc2l' : Canon l1 f2 := canon_mem hc2l (fun o => (hperm.mem_iff).symm)
  exact canon_unique hc1l hc2l'

theorem c1_confluence_witness :
    (∀ o ∈ [Op.mthOp { name := "m".toList, qualname := "K.m".toList } ("d".toList) (some 2),
        Op.clsOp { name := "K".toList } none none ("s".toList) [] none], OneSepOp o) ∧
    List.Perm
      [Op.mthOp { name := "m".toList, qualname := "K.m".toList } ("d".toList) (some 2),
        Op.clsOp { name := "K".toList } none none ("s".toList) [] none]
      [Op.clsOp { name := "K".toList } none none ("s".toList) [] none,
        Op.mthOp { name := "m".toList, qualname := "K.m".toList } ("d".toList) (some 2)] ∧
    runAll emptyFactory
      [Op.mthOp { name := "m".toList, qualname := "K.m".toList } ("d".toList) (some 2),
        Op.clsOp { name := "K".toList } none none ("s".toList) [] none] =
      some
        { suites := [("k".toList,
            { test_class := { name := "K".toList }
              name := "K".toList
              key := "k".toList
              area := none
              category := none
              description := "s".toList
              tags := []
              cases := [("m".toList, "k.m".toList)] })]
          cases := [("k.m".toList,
            { name := "m".toList
              full_name := "k.m".toList
              method := { name := "m".toList, qualname := "K.m".toList }
              description := "d".toList
              priority := some 2
              suite := some ("k".toList)
              key := "m".toList })] } ∧
    runAll emptyFactory
      [Op.clsOp { name := "K".toList } none none ("s".toList) [] none,
        Op.mthOp { name := "m".toList, qualname := "K.m".toList } ("d".toList) (some 2)] =
      some
        { suites := [("k".toList,
            { test_class := { name := "K".toList }
              name := "K".toList
              key := "k".toList
              area := none
              category := none
              description := "s".toList
              tags := []
              cases := [("m".toList, "k.m".toList)] })]
          cases := [("k.m".toList,
            { name := "m".toList
              full_name := "k.m".toList
              method := { name := "m".toList, qualname := "K.m".toList }
              description := "d".toList
              priority := some 2
              suite := some ("k".toList)
              key := "m".toList })] } ∧
    FactoryEquiv
      { suites := [("k".toList,
          { test_class := { name := "K".toList }
            name := "K".toList
            key := "k".toList
            area := none
            category := none
            description := "s".toList
            tags := []
            cases := [("m".toList, "k.m".toList)] })]
        cases := [("k.m".toList,
          { name := "m".toList
            full_name := "k.m".toList
            method := { name := "m".toList, qualname := "K.m".toList }
            description := "d".toList
            priority := some 2
            suite := some ("k".toList)
            key := "m".toList })] }
      { suites := [("k".toList,
          { test_class := { name := "K".toList }
            name := "K".toList
            key := "k".toList
            area := none
            category := none
            description := "s".toList
            tags := []
            cases := [("m".toList, "k.m".toList)] })]
        cases := [("k.m".toList,
          { name := "m".toList
            full_name := "k.m".toList
            method := { name := "m".toList, qualname := "K.m".toList }
            description := "d".toList
            priority := some 2
            suite := some ("k".toList)
            key := "m".toList })] } :=
  ⟨by decide, List.Perm.swap _ _ [], by decide, by decide,
    c1_confluence
      [Op.mthOp { name := "m".toList, qualname := "K.m".toList } ("d".toList) (some 2),
        Op.clsOp { name := "K".toList } none none ("s".toList) [] none]
      [Op.clsOp { name := "K".toList } none none ("s".toList) [] none,
        Op.mthOp { name := "m".toList, qualname := "K.m".toList } ("d".toList) (some 2)]
      { suites := [("k".toList,
          { test_class := { name := "K".toList }
            name := "K".toList
            key := "k".toList
            area := none
            category := none
            description := "s".toList
            tags := []
            cases := [("m".toList, "k.m".toList)] })]
        cases := [("k.m".toList,
          { name := "m".toList
            full_name := "k.m".toList
            method := { name := "m".toList, qualname := "K.m".toList }
            description := "d".toList
            priority := some 2
            suite := some ("k".toList)
            key := "m".toList })] }
      { suites := [("k".toList,
          { test_class := { name := "K".toList }
            name := "K".toList
            key := "k".toList
            area := none
            category := none
            description := "s".toList
            tags := []
            cases := [("m".toList, "k.m".toList)] })]
        cases := [("k.m".toList,
          { name := "m".toList
            full_name := "k.m".toList
            method := { name := "m".toList, qualname := "K.m".toList }
            description := "d".toList
            priority := some 2
            suite := some ("k".toList)
            key := "m".toList })] }
      (by decide) (List.Perm.swap _ _ []) (by decide) (by decide)⟩
